import Mathlib

/-!
# wpaxos: the per-key Paxos state machine of `src/wpaxos/paxos.go` and its router

A shallow embedding of the handlers of `paxos.go`, of the router of `replica.go` and of the
quorum operations and the consensus check of `client.go`.

* Go `int` values (ballots, slot numbers, the commit index) are Lean `Int`s; a Go `int`
  is 64 bits wide and takes the values from `MinInt64` to `MaxInt64`. The slot counter is
  assigned from message fields (`PreSlot`, `Slot`) and can therefore stand at
  `MaxInt64 = 2^63 - 1` after a single message; its increment `p.slot++` in `accept` is the
  two's-complement increment `wrap64 (slot + 1)`, which takes `MaxInt64` to `MinInt64`.
  The commit index starts at 0 and changes only by `p.commit++` past a bound and committed
  slot, so it takes `2^63 - 1` iterations of that loop to bring it to `MaxInt64`; its
  increment is left unreduced.
* `map[int]*instance` is an association list accessed only through `Map.get`, `Map.set`
  and `Map.del`, which follow Go's lookup, assignment and `delete`.
* A handler returns `none` when the Go code dereferences a nil pointer (a run-time panic)
  and `some (p, effects)` otherwise, where `effects` lists, in program order, what the
  handler hands to its collaborators (transport, inbound channel, reply sink, goroutines).
* The field `instance.timestamp` is written with `time.Now()` by `accept` and never read;
  wall-clock time is not part of the embedding and the field is left out.
* Logging calls have no effect on the state, except that evaluating their arguments can
  dereference a nil pointer, which is kept.
-/

namespace Paxi

/-! ## Data model -/

/-- Replica identifier; `0` is the zero value that `handleRequest` compares against. -/
abbrev ID := Nat

/-- Key of the replicated store (an integer in the source). -/
abbrev Key := Int

/-- Value of the replicated store (`[]byte`). -/
abbrev Value := List Nat

/-- Command of the key-value store. -/
structure Command where
  Key : Paxi.Key
  Value : Paxi.Value
  ClientID : Paxi.ID
  CommandID : Int
deriving DecidableEq, Repr

/-- Reply delivered through the reply sink of a request. -/
structure Reply where
  OK : Bool
  CommandID : Int
  LeaderID : Paxi.ID
  ClientID : Paxi.ID
  Command : Paxi.Command
  Timestamp : Int
deriving DecidableEq, Repr

/-- Client request as read by `paxos.go`; `sink` names the reply channel it carries. -/
structure Request where
  CommandID : Int
  ClientID : Paxi.ID
  Command : Paxi.Command
  Timestamp : Int
  sink : Nat
deriving DecidableEq, Repr

structure Prepare where
  Key : Paxi.Key
  Ballot : Int
deriving DecidableEq, Repr

structure Promise where
  Key : Paxi.Key
  ID : Paxi.ID
  Ballot : Int
  PreSlot : Int
deriving DecidableEq, Repr

structure Accept where
  Key : Paxi.Key
  Ballot : Int
  Slot : Int
  Commands : List Paxi.Command
deriving DecidableEq, Repr

structure Accepted where
  Key : Paxi.Key
  ID : Paxi.ID
  Ballot : Int
  Slot : Int
deriving DecidableEq, Repr

structure Commit where
  Key : Paxi.Key
  Ballot : Int
  Slot : Int
  Commands : List Paxi.Command
deriving DecidableEq, Repr

structure LeaderChange where
  Key : Paxi.Key
  To : Paxi.ID
  From : Paxi.ID
  Ballot : Int
deriving DecidableEq, Repr

/-- Messages a per-key instance emits through the transport. -/
inductive Msg where
  | prepare (m : Prepare)
  | promise (m : Promise)
  | accept (m : Accept)
  | accepted (m : Accepted)
  | commit (m : Commit)
  | leaderChange (m : LeaderChange)
deriving DecidableEq, Repr

/-- What a handler hands to its collaborators, in program order. -/
inductive Effect where
  /-- Transport call `p.Send(to, m)`. -/
  | Send (dst : ID) (m : Msg)
  /-- Transport call `p.Broadcast(m)`. -/
  | Broadcast (m : Msg)
  /-- Transport call `p.Multicast(site, m)`. -/
  | Multicast (site : Int) (m : Msg)
  /-- Posting a request to the inbound channel, `p.MessageChan <- r`. -/
  | MessageChan (r : Request)
  /-- Answering a request, `r.Reply(rep)`. -/
  | Reply (r : Request) (rep : Paxi.Reply)
  /-- Starting the goroutine that sleeps and then runs `retryPrepare`. -/
  | Go
deriving DecidableEq, Repr

/-- Max of two int (`util.go`). -/
def Max (a b : Int) : Int := if a < b then b else a

/-- The largest value of a 64-bit Go `int`, `math.MaxInt64 = 2^63 - 1`. -/
def MaxInt64 : Int := 9223372036854775807

/-- The least value of a 64-bit Go `int`, `math.MinInt64 = -2^63`. -/
def MinInt64 : Int := -9223372036854775808

/-- Reduction of an integer to the range of a 64-bit Go `int`, as Go's two's-complement
arithmetic does on overflow: `(x + 2^63) % 2^64 - 2^63`. -/
def wrap64 (x : Int) : Int :=
  (x + 9223372036854775808) % 18446744073709551616 - 9223372036854775808

/-! ## Go maps as association lists -/

namespace Map

/-- Lookup `m[k]`: the first binding of `k`, if any. -/
def get {κ ν : Type} [DecidableEq κ] : List (κ × ν) → κ → Option ν
  | [], _ => none
  | (k', v) :: rest, k => if k' = k then some v else get rest k

/-- Removal `delete(m, k)`. -/
def del {κ ν : Type} [DecidableEq κ] (m : List (κ × ν)) (k : κ) : List (κ × ν) :=
  m.filter (fun e => decide (e.1 ≠ k))

/-- Assignment `m[k] = v`. -/
def set {κ ν : Type} [DecidableEq κ] (m : List (κ × ν)) (k : κ) (v : ν) : List (κ × ν) :=
  (k, v) :: del m k

end Map

/-! ## Quorum tracker -/

/-- Modelled from the spec: the quorum tracker (type `Quorum` of package paxi, absent from
the sources) "counts acknowledgements from distinct replicas"; it is the list of the
distinct ids acknowledged so far. -/
abbrev Quorum := List ID

/-- Modelled from the spec: `NewQuorum()`, a tracker without acknowledgements. -/
def NewQuorum : Quorum := []

/-- Modelled from the spec: `ACK(id)`, "idempotent per id (duplicate acks do not
double-count)". The receiver is a tracker that exists; a call on a nil `*Quorum` is a
nil dereference and is handled where the call is made. -/
def Quorum.ACK (q : Quorum) (id : ID) : Quorum := if id ∈ q then q else q ++ [id]

/-! ## The collaborators of a per-key instance -/

/-- What a per-key instance reads through its embedded `*Replica` and the package-level
helpers of package paxi whose code is not among the sources; they are parameters of every
handler. -/
structure Env where
  /-- Identifier of this replica, `p.ID`. -/
  ID : Paxi.ID
  /-- Handover threshold, `p.Threshold`. -/
  Threshold : Int
  /-- Package function `NextBallot(ballot, id)`. -/
  NextBallot : Int → Paxi.ID → Int
  /-- Package function `LeaderID(ballot)`. -/
  LeaderID : Int → Paxi.ID
  /-- Phase-1 quorum test `Q1()` of the configured quorum system. -/
  Q1 : Quorum → Bool
  /-- Phase-2 quorum test `Q2()` of the configured quorum system. -/
  Q2 : Quorum → Bool
  /-- Zone of an identifier, `id.Site()`. -/
  Site : Paxi.ID → Int
  /-- Constructor `NewID(site, node)`. -/
  NewID : Int → Int → Paxi.ID
  /-- Policy of the access-locality statistic: the handover target returned by
  `stat.hit` after the given hits have been recorded (`0` for none). -/
  hit : List Paxi.ID → Paxi.ID

/-! ## Per-key state -/

/-- Entry of the per-key log (`type instance struct`). -/
structure Instance where
  ballot : Int
  commands : List Command
  committed : Bool
  request : Option Request
  quorum : Option Quorum
deriving DecidableEq, Repr

/-- Per-key Paxos state (`type paxos struct`); `stat` is the list of hits recorded by the
access-locality statistic. -/
structure paxos where
  key : Key
  active : Bool
  ballot : Int
  quorum : Option Quorum
  requests : List Request
  sleeping : Bool
  cmds : List (Int × Instance)
  slot : Int
  commit : Int
  stat : List ID
deriving DecidableEq, Repr

/-- Result of a handler call: `none` is a run-time panic. -/
abbrev Result := Option (paxos × List Effect)

/-- Constructor `NewPaxos(replica, key)`. -/
def NewPaxos (key : Key) : paxos :=
  { key := key, active := false, ballot := 0, quorum := none, requests := [],
    sleeping := false, cmds := [], slot := 0, commit := 0, stat := [] }

/-- Method `(p *paxos) NextBallot()`. -/
def paxos.NextBallot (env : Env) (p : paxos) : paxos :=
  { p with ballot := env.NextBallot p.ballot env.ID }

/-- Phase 1, `(p *paxos) prepare()`. -/
def paxos.prepare (env : Env) (p : paxos) : paxos × List Effect :=
  if p.active = false then
    let p1 := p.NextBallot env
    let p2 := { p1 with quorum := some (NewQuorum.ACK env.ID) }
    (p2, [Effect.Broadcast (Msg.prepare { Key := p2.key, Ballot := p2.ballot })])
  else
    (p, [])

/-- Phase 2, `(p *paxos) accept(msg)`. The statement `p.slot++` is an increment of a Go
`int`: it wraps from `MaxInt64` to `MinInt64`. -/
def paxos.accept (env : Env) (p : paxos) (msg : Request) : paxos × List Effect :=
  let slot := wrap64 (p.slot + 1)
  let ins : Instance :=
    { ballot := p.ballot, commands := [msg.Command], committed := false,
      request := some msg, quorum := some (NewQuorum.ACK env.ID) }
  ({ p with slot := slot, cmds := Map.set p.cmds slot ins },
   [Effect.Multicast (env.Site env.ID)
      (Msg.accept { Key := p.key, Ballot := p.ballot, Slot := slot,
                    Commands := [msg.Command] })])

/-- The loop `for _, req := range p.requests { p.accept(req) }`. -/
def paxos.acceptAll (env : Env) : paxos → List Request → paxos × List Effect
  | p, [] => (p, [])
  | p, req :: rest =>
    let r1 := p.accept env req
    let r2 := paxos.acceptAll env r1.1 rest
    (r2.1, r1.2 ++ r2.2)

/-- The loop `for p.cmds[p.commit+1] != nil && p.cmds[p.commit+1].committed { p.commit++ }`
on the commit index `c`, run for at most `fuel` iterations. -/
def advance (cmds : List (Int × Instance)) : Nat → Int → Int
  | 0, c => c
  | fuel + 1, c =>
    match Map.get cmds (c + 1) with
    | some ins => if ins.committed then advance cmds fuel (c + 1) else c
    | none => c

/-- The commit-advancing loop on a state; the number of bindings of `cmds` bounds the
number of iterations (see `advance_exit`). -/
def paxos.advanceCommit (p : paxos) : paxos :=
  { p with commit := advance p.cmds p.cmds.length p.commit }

/-- Handler `(p *paxos) handleRequest(msg)`. The call `p.stat.hit(id)` records the hit and
returns the target chosen by the policy `env.hit`. -/
def paxos.handleRequest (env : Env) (p : paxos) (msg : Request) : Result :=
  if p.active then
    let r1 := p.accept env msg
    let stat := r1.1.stat ++ [env.NewID (env.Site msg.ClientID) 1]
    let dst := env.hit stat
    let p2 := { r1.1 with stat := stat }
    if env.Threshold > 0 ∧ dst ≠ 0 ∧ env.Site dst ≠ env.Site env.ID then
      some (p2, r1.2 ++ [Effect.Send dst
        (Msg.leaderChange { Key := p2.key, To := dst, From := env.ID, Ballot := p2.ballot })])
    else
      some (p2, r1.2)
  else if env.LeaderID p.ballot = env.ID then
    some ({ p with requests := p.requests ++ [msg] }, [])
  else if env.Threshold > 0 ∧ p.ballot ≠ 0 then
    some (p, [Effect.Reply msg
      { OK := false, CommandID := msg.CommandID, LeaderID := env.LeaderID p.ballot,
        ClientID := msg.ClientID, Command := msg.Command, Timestamp := msg.Timestamp }])
  else
    let p1 := { p with requests := p.requests ++ [msg] }
    let p2 := p1.NextBallot env
    some (p2.prepare env)

/-- Body of the goroutine started by `handlePrepare` and `handlePromise`, run when its
sleep is over: `p.prepare(); p.sleeping = false`. -/
def paxos.retryPrepare (env : Env) (p : paxos) : Result :=
  let r := p.prepare env
  some ({ r.1 with sleeping := false }, r.2)

/-- Handler `(p *paxos) handlePrepare(msg)`. -/
def paxos.handlePrepare (env : Env) (p : paxos) (msg : Prepare) : Result :=
  let r : paxos × List Effect :=
    if msg.Ballot > p.ballot then
      let p1 := { p with ballot := msg.Ballot, active := false }
      if p1.requests.length > 0 ∧ p1.sleeping = false then
        ({ p1 with sleeping := true }, [Effect.Go])
      else
        (p1, [])
    else
      (p, [])
  some (r.1, r.2 ++ [Effect.Send (env.LeaderID msg.Ballot)
    (Msg.promise { Key := r.1.key, ID := env.ID, Ballot := r.1.ballot, PreSlot := r.1.slot })])

/-- Handler `(p *paxos) handlePromise(msg)`. The result is `none` when `p.quorum` is nil at
`p.quorum.ACK(msg.ID)`: no `prepare` has run yet. -/
def paxos.handlePromise (env : Env) (p : paxos) (msg : Promise) : Result :=
  if msg.Ballot < p.ballot ∨ p.active = true then
    some (p, [])
  else
    let p1 := if msg.PreSlot > p.slot then { p with slot := msg.PreSlot } else p
    if msg.Ballot = p1.ballot ∧ env.LeaderID msg.Ballot = env.ID then
      match p1.quorum with
      | none => none
      | some q =>
        let q1 := q.ACK msg.ID
        let p2 := { p1 with quorum := some q1 }
        if env.Q1 q1 = true then
          let p3 := { p2 with active := true }
          let r := paxos.acceptAll env p3 p3.requests
          some ({ r.1 with requests := [] }, r.2)
        else
          some (p2, [])
    else
      let p2 := { p1 with ballot := msg.Ballot, active := false }
      if p2.sleeping = false then
        some ({ p2 with sleeping := true }, [Effect.Go])
      else
        some (p2, [])

/-- Handler `(p *paxos) handleAccept(msg)`. -/
def paxos.handleAccept (env : Env) (p : paxos) (msg : Accept) : Result :=
  let r : paxos × List Effect :=
    if msg.Ballot ≥ p.ballot then
      let es : List Effect :=
        match Map.get p.cmds msg.Slot with
        | some ins =>
          match ins.request with
          | some req => [Effect.MessageChan req]
          | none => []
        | none => []
      ({ p with
          ballot := msg.Ballot, active := false, slot := Max p.slot msg.Slot,
          cmds := Map.set p.cmds msg.Slot
            { ballot := msg.Ballot, commands := msg.Commands, committed := false,
              request := none, quorum := none } }, es)
    else
      (p, [])
  some (r.1, r.2 ++ [Effect.Send (env.LeaderID msg.Ballot)
    (Msg.accepted { Key := r.1.key, ID := env.ID, Ballot := r.1.ballot, Slot := msg.Slot })])

/-- The last statement of `handleAccepted`:
`if msg.Ballot > p.ballot { p.ballot = msg.Ballot; p.active = false }`. -/
def paxos.adoptBallot (p : paxos) (b : Int) : paxos :=
  if b > p.ballot then { p with ballot := b, active := false } else p

/-- Handler `(p *paxos) handleAccepted(msg)`. The result is `none` when `ins.quorum` is
nil at `ins.quorum.ACK(msg.ID)`, and when `ins.request` is nil where it is dereferenced:
at `ins.request.CommandID` after the `Commit` broadcast, and at `ins.request.Command` in
the branch that gives the slot up. -/
def paxos.handleAccepted (env : Env) (p : paxos) (msg : Accepted) : Result :=
  match Map.get p.cmds msg.Slot with
  | none => some (p, [])
  | some ins =>
    if ins.committed = true ∨ msg.Ballot < ins.ballot then
      some (p, [])
    else if msg.Ballot = ins.ballot then
      match ins.quorum with
      | none => none
      | some q =>
        let q1 := q.ACK msg.ID
        let ins1 := { ins with quorum := some q1 }
        if env.Q2 q1 = true then
          let ins2 := { ins1 with committed := true }
          let p1 := { p with cmds := Map.set p.cmds msg.Slot ins2 }
          let p2 := p1.advanceCommit
          match ins2.request with
          | none => none
          | some req =>
            some (p2.adoptBallot msg.Ballot,
              [Effect.Broadcast (Msg.commit
                 { Key := p2.key, Ballot := ins2.ballot, Slot := msg.Slot,
                   Commands := ins2.commands }),
               Effect.Reply req
                 { OK := true, CommandID := req.CommandID, LeaderID := env.ID,
                   ClientID := req.ClientID, Command := req.Command,
                   Timestamp := req.Timestamp }])
        else
          let p1 := { p with cmds := Map.set p.cmds msg.Slot ins1 }
          some (p1.adoptBallot msg.Ballot, [])
    else
      match ins.request with
      | none => none
      | some req =>
        let p1 := { p with cmds := Map.del p.cmds msg.Slot }
        some (p1.adoptBallot msg.Ballot, [Effect.MessageChan req])

/-- Handler `(p *paxos) handleCommit(msg)`. -/
def paxos.handleCommit (p : paxos) (msg : Commit) : Result :=
  let p1 : paxos := if msg.Ballot > p.ballot then { p with ballot := msg.Ballot } else p
  let p2 : paxos := if msg.Slot > p1.slot then { p1 with slot := msg.Slot } else p1
  let ins : Instance :=
    match Map.get p2.cmds msg.Slot with
    | none =>
      { commands := msg.Commands, ballot := msg.Ballot, committed := true,
        request := none, quorum := none }
    | some ins => { ins with committed := true }
  let p3 : paxos := { p2 with cmds := Map.set p2.cmds msg.Slot ins }
  some (p3.advanceCommit, [])

/-- Handler `(p *paxos) handleLeaderChange(msg)`. -/
def paxos.handleLeaderChange (env : Env) (p : paxos) (msg : LeaderChange) : Result :=
  if msg.To = env.ID then
    let p1 := { p with ballot := Max p.ballot msg.Ballot }
    some (p1.prepare env)
  else
    some (p, [])

/-! ## Steps of a per-key instance -/

/-- What a per-key instance can be asked to handle: one of the seven inbound message
kinds, or the wake-up of the goroutine started by `handlePrepare` / `handlePromise`. -/
inductive Input where
  | request (msg : Request)
  | prepare (msg : Prepare)
  | promise (msg : Promise)
  | accept (msg : Accept)
  | accepted (msg : Accepted)
  | commit (msg : Commit)
  | leaderChange (msg : LeaderChange)
  | retry
deriving DecidableEq, Repr

/-- One handler call, dispatched as in `Replica.messageLoop`. -/
def paxos.step (env : Env) (p : paxos) : Input → Result
  | Input.request msg => p.handleRequest env msg
  | Input.prepare msg => p.handlePrepare env msg
  | Input.promise msg => p.handlePromise env msg
  | Input.accept msg => p.handleAccept env msg
  | Input.accepted msg => p.handleAccepted env msg
  | Input.commit msg => p.handleCommit msg
  | Input.leaderChange msg => p.handleLeaderChange env msg
  | Input.retry => p.retryPrepare env

/-- Running a list of inputs from a state; `none` as soon as a handler panics. The state
after the run and the effects of all the steps, in order. -/
def paxos.run (env : Env) : paxos → List Input → Result
  | p, [] => some (p, [])
  | p, i :: rest =>
    match p.step env i with
    | none => none
    | some r1 =>
      match paxos.run env r1.1 rest with
      | none => none
      | some r2 => some (r2.1, r1.2 ++ r2.2)

/-- States reachable from `NewPaxos key` through handler calls that complete. -/
inductive Reachable (env : Env) (key : Key) : paxos → Prop where
  | init : Reachable env key (NewPaxos key)
  | step (p : paxos) (i : Input) (r : paxos × List Effect) :
      Reachable env key p → p.step env i = some r → Reachable env key r.1

/-- Every slot bound in `cmds` is at most `slot`. -/
def paxos.KeysBelowSlot (p : paxos) : Prop :=
  ∀ k ins, Map.get p.cmds k = some ins → k ≤ p.slot

/-- Every slot bound to an entry that holds a request is at least 1. -/
def paxos.RequestSlotsPositive (p : paxos) : Prop :=
  ∀ k ins req, Map.get p.cmds k = some ins → ins.request = some req → 1 ≤ k

/-- The request `r` is held by the state: it is in the queue `requests` or in the
`request` field of a `cmds` entry. -/
def paxos.Holds (p : paxos) (r : Request) : Prop :=
  r ∈ p.requests ∨ ∃ k ins, Map.get p.cmds k = some ins ∧ ins.request = some r

/-- Whether `handlePromise(m)` reaches its draining loop
`for _, req := range p.requests { p.accept(req) }`: the promise is not ignored, it carries
the local ballot, that ballot is this replica's own, and its acknowledgement completes the
Phase-1 quorum. -/
def paxos.drains (env : Env) (p : paxos) (m : Promise) : Bool :=
  !p.active && decide (m.Ballot = p.ballot) && decide (env.LeaderID m.Ballot = env.ID) &&
    (match p.quorum with
     | some q => env.Q1 (q.ACK m.ID)
     | none => false)

/-- Whether the step overflows the slot counter, that is, executes `p.slot++` when `slot`
is `MaxInt64`. The statement is executed once by `handleRequest` on an active replica, and
once per buffered request by the draining loop of `handlePromise`, which starts from
`max(slot, m.PreSlot)`; no other handler executes it (see `paxos.overflows_iff`). -/
def paxos.overflows (env : Env) (p : paxos) : Input → Bool
  | Input.request _ => p.active && decide (p.slot + 1 > MaxInt64)
  | Input.promise m =>
    p.drains env m && decide (max p.slot m.PreSlot + p.requests.length > MaxInt64)
  | _ => false

/-- States reachable from `NewPaxos key` through handler calls that complete and do not
overflow the slot counter. -/
inductive ReachableNoOverflow (env : Env) (key : Key) : paxos → Prop where
  | init : ReachableNoOverflow env key (NewPaxos key)
  | step (p : paxos) (i : Input) (r : paxos × List Effect) :
      ReachableNoOverflow env key p → p.overflows env i = false → p.step env i = some r →
      ReachableNoOverflow env key r.1

/-- Whether some step of the run of a list of inputs overflows the slot counter. -/
def paxos.runOverflows (env : Env) : paxos → List Input → Bool
  | _, [] => false
  | p, i :: rest =>
    p.overflows env i ||
      (match p.step env i with
       | some r => paxos.runOverflows env r.1 rest
       | none => false)

/-! ## The replica router of `src/wpaxos/replica.go` -/

/-- Router state (`type Replica struct`): the map `paxi` from keys to per-key instances.
The fields `ID` (through `*Node`) and `Threshold` do not change and are read from `Env`. -/
structure Replica where
  paxi : List (Key × paxos)
deriving DecidableEq, Repr

/-- Constructor `NewReplica(config)`: no per-key instance yet. -/
def NewReplica : Replica := { paxi := [] }

/-- Method `(r *Replica) init(key)`. -/
def Replica.init (r : Replica) (key : Key) : Replica :=
  match Map.get r.paxi key with
  | some _ => r
  | none => { r with paxi := Map.set r.paxi key (NewPaxos key) }

/-- The call `r.paxi[key].handle(msg)` for a handler `handle` of the per-key instance.
When `key` is not bound, `r.paxi[key]` is a nil `*paxos` and the handler dereferences it:
the result is `none`, as it is when the handler itself panics. Otherwise the handler
works on the instance the map points to. -/
def Replica.call (r : Replica) (key : Key) (handle : paxos → Result) :
    Option (Replica × List Effect) :=
  match Map.get r.paxi key with
  | none => none
  | some p =>
    match handle p with
    | none => none
    | some res => some ({ r with paxi := Map.set r.paxi key res.1 }, res.2)

/-- Method `(r *Replica) handleRequest(msg)`. -/
def Replica.handleRequest (env : Env) (r : Replica) (msg : Request) :
    Option (Replica × List Effect) :=
  let key := msg.Command.Key
  (r.init key).call key (fun p => p.handleRequest env msg)

/-- Method `(r *Replica) handlePrepare(msg)`. -/
def Replica.handlePrepare (env : Env) (r : Replica) (msg : Prepare) :
    Option (Replica × List Effect) :=
  let key := msg.Key
  (r.init key).call key (fun p => p.handlePrepare env msg)

/-- Method `(r *Replica) handlePromise(msg)`: no call of `init`. -/
def Replica.handlePromise (env : Env) (r : Replica) (msg : Promise) :
    Option (Replica × List Effect) :=
  let key := msg.Key
  r.call key (fun p => p.handlePromise env msg)

/-- Method `(r *Replica) handleAccept(msg)`. -/
def Replica.handleAccept (env : Env) (r : Replica) (msg : Accept) :
    Option (Replica × List Effect) :=
  let key := msg.Key
  (r.init key).call key (fun p => p.handleAccept env msg)

/-- Method `(r *Replica) handleAccepted(msg)`: no call of `init`. -/
def Replica.handleAccepted (env : Env) (r : Replica) (msg : Accepted) :
    Option (Replica × List Effect) :=
  let key := msg.Key
  r.call key (fun p => p.handleAccepted env msg)

/-- Method `(r *Replica) handleCommit(msg)`. -/
def Replica.handleCommit (r : Replica) (msg : Commit) : Option (Replica × List Effect) :=
  let key := msg.Key
  (r.init key).call key (fun p => p.handleCommit msg)

/-- Method `(r *Replica) handleLeaderChange(msg)`: no call of `init`. -/
def Replica.handleLeaderChange (env : Env) (r : Replica) (msg : LeaderChange) :
    Option (Replica × List Effect) :=
  let key := msg.Key
  r.call key (fun p => p.handleLeaderChange env msg)

/-- Messages taken from the inbound channel by `messageLoop`. -/
inductive Message where
  | request (msg : Request)
  | prepare (msg : Prepare)
  | promise (msg : Promise)
  | accept (msg : Accept)
  | accepted (msg : Accepted)
  | commit (msg : Commit)
  | leaderChange (msg : LeaderChange)
deriving DecidableEq, Repr

/-- Key a message carries: `msg.Command.Key` for a request, `msg.Key` otherwise. -/
def Message.key : Message → Key
  | Message.request msg => msg.Command.Key
  | Message.prepare msg => msg.Key
  | Message.promise msg => msg.Key
  | Message.accept msg => msg.Key
  | Message.accepted msg => msg.Key
  | Message.commit msg => msg.Key
  | Message.leaderChange msg => msg.Key

/-- The per-key input a message stands for. -/
def Message.input : Message → Input
  | Message.request msg => Input.request msg
  | Message.prepare msg => Input.prepare msg
  | Message.promise msg => Input.promise msg
  | Message.accept msg => Input.accept msg
  | Message.accepted msg => Input.accepted msg
  | Message.commit msg => Input.commit msg
  | Message.leaderChange msg => Input.leaderChange msg

/-- One iteration of `(r *Replica) messageLoop()`: the type switch on the message taken
from the inbound channel. -/
def Replica.messageLoop (env : Env) (r : Replica) : Message → Option (Replica × List Effect)
  | Message.request msg => r.handleRequest env msg
  | Message.prepare msg => r.handlePrepare env msg
  | Message.promise msg => r.handlePromise env msg
  | Message.accept msg => r.handleAccept env msg
  | Message.accepted msg => r.handleAccepted env msg
  | Message.commit msg => r.handleCommit msg
  | Message.leaderChange msg => r.handleLeaderChange env msg

/-! ## A concrete configuration -/

/-- Modelled from the spec: `leader_of(ballot)` "extracts the id" that a ballot "encodes
in its low bits"; the id is taken to occupy the low 16 bits. -/
def specLeaderID (b : Int) : ID := (b % 65536).toNat

/-- Modelled from the spec: `next_ballot(b, self)` "yields the smallest ballot greater
than `b` whose embedded id is `self`". -/
def specNextBallot (b : Int) (id : ID) : Int :=
  if b % 65536 < (id : Int) then b - b % 65536 + id else b - b % 65536 + 65536 + id

/-- Modelled from the spec: a replica in zone 1 (id `1.1`, encoded `257`) of a
three-replica system with simple-majority quorums and locality handover switched off. -/
def env1 : Env :=
  { ID := 257, Threshold := 0, NextBallot := specNextBallot, LeaderID := specLeaderID,
    Q1 := fun q => decide (3 < 2 * q.length), Q2 := fun q => decide (3 < 2 * q.length),
    Site := fun id => (id : Int) / 256, NewID := fun site node => (site * 256 + node).toNat,
    hit := fun _ => 0 }

/-- Two commands on key 5 with different values. -/
def cmdA : Command := { Key := 5, Value := [1], ClientID := 257, CommandID := 1 }

def cmdB : Command := { Key := 5, Value := [2], ClientID := 513, CommandID := 1 }

/-- Client request carrying `cmdA`. -/
def reqA : Request :=
  { CommandID := 1, ClientID := 257, Command := cmdA, Timestamp := 0, sink := 0 }

/-- The configuration `env1` with locality handover switched on (`Threshold = 3`). -/
def env2 : Env := { env1 with Threshold := 3 }

/-- An `Accept` of replica `1.2` (id 258, ballot 258) proposing `cmdA` for slot 1. -/
def acceptA : Accept := { Key := 5, Ballot := 258, Slot := 1, Commands := [cmdA] }

/-- A `Commit` of replica `2.1` (id 513, ballot 66049) announcing `cmdB` for slot 1. -/
def commitB : Commit := { Key := 5, Ballot := 66049, Slot := 1, Commands := [cmdB] }

/-- The `Accept` of replica `2.1` that `commitB` concludes: same ballot, slot and
commands. -/
def acceptB : Accept := { Key := 5, Ballot := 66049, Slot := 1, Commands := [cmdB] }

/-- The `Promise` of replica `1.2` for the ballot 65793 that replica `1.1` holds after
handling `reqA` in its initial state. -/
def promise258 : Promise := { Key := 5, ID := 258, Ballot := 65793, PreSlot := 0 }

/-- A `Commit` of replica `1.2` at its ballot 131330 for slot 7. -/
def commitHigh : Commit := { Key := 5, Ballot := 131330, Slot := 7, Commands := [cmdB] }

/-- A `LeaderChange` sent by replica `1.2`, leader at ballot 131330, to replica `1.1`. -/
def leaderChangeHigh : LeaderChange := { Key := 5, To := 257, From := 258, Ballot := 131330 }

/-- A follower of replica `1.2`: ballot 258, nothing else. -/
def follower258 : paxos := { NewPaxos 5 with ballot := 258 }

/-- An active leader at ballot 65793 whose slot 1 holds `reqA`, uncommitted. -/
def leaderWithSlot1 : paxos :=
  { NewPaxos 5 with
      active := true, ballot := 65793, quorum := some [257, 258], slot := 1,
      cmds := [(1, { ballot := 65793, commands := [cmdA], committed := false,
                     request := some reqA, quorum := some [257] })] }

/-- The state of replica `1.1` after it has handled `commitB` in its initial state: slot 1
is committed with `[cmdB]` and `commit = 1`. -/
def learnedSlot1 : paxos :=
  { NewPaxos 5 with
      ballot := 66049, slot := 1, commit := 1,
      cmds := [(1, { ballot := 66049, commands := [cmdB], committed := true,
                     request := none, quorum := none })] }

/-- An `Accept` of replica `1.2` at its ballot 131330 proposing `cmdB` for slot 1. -/
def acceptHigh : Accept := { Key := 5, Ballot := 131330, Slot := 1, Commands := [cmdB] }

/-- The `Accepted` with which replica `1.2`, at its own ballot 131330, answers the
`Accept` of replica `1.1` for slot 1. -/
def acceptedHigh : Accepted := { Key := 5, ID := 258, Ballot := 131330, Slot := 1 }

/-- An `Accepted` of replica `2.1` for slot 1 at ballot 258, the ballot of `acceptA`. -/
def acceptedA : Accepted := { Key := 5, ID := 513, Ballot := 258, Slot := 1 }

/-- A router that holds the instance `learnedSlot1` for key 5 and a fresh one for key 9. -/
def replica59 : Replica := { paxi := [(9, NewPaxos 9), (5, learnedSlot1)] }

/-- A second client request, carrying `cmdB`. -/
def reqB : Request :=
  { CommandID := 2, ClientID := 513, Command := cmdB, Timestamp := 7, sink := 1 }

/-- A replica waiting for promises at its own ballot 65793, with `reqA` and `reqB`
buffered. -/
def preparing : paxos :=
  { NewPaxos 5 with ballot := 65793, quorum := some [257], requests := [reqA, reqB], slot := 2 }

/-- A `Promise` of replica `1.2` for the ballot 65793 whose slot watermark is
`MaxInt64`. -/
def promiseMax : Promise := { Key := 5, ID := 258, Ballot := 65793, PreSlot := MaxInt64 }

/-- A `Promise` of replica `1.2` for the ballot 65793 whose slot watermark is
`MaxInt64 - 1`. -/
def promiseBelowMax : Promise :=
  { Key := 5, ID := 258, Ballot := 65793, PreSlot := MaxInt64 - 1 }

/-- A `Commit` of replica `1.2` at its ballot 258 for slot `MaxInt64`. -/
def commitTop : Commit := { Key := 5, Ballot := 258, Slot := MaxInt64, Commands := [cmdB] }

/-- A `Commit` of replica `1.2` at its ballot 258 for slot `MinInt64`. -/
def commitBottom : Commit :=
  { Key := 5, Ballot := 258, Slot := MinInt64, Commands := [cmdB] }

/-- An `Accept` of replica `1.2` at its ballot 131330 proposing `cmdA` for slot 2. -/
def acceptSlot2 : Accept := { Key := 5, Ballot := 131330, Slot := 2, Commands := [cmdA] }

/-! ## The client of `src/client.go` -/

/-- Node identifier as `client.go` uses it: a string (`id == ""`, `string(c.ID)`). -/
abbrev NodeID := String

/-- A call `c.rest(id, key, value)`; `value = none` is the nil value of a read. -/
structure RestCall where
  id : NodeID
  key : Key
  value : Option Value
deriving DecidableEq, Repr

/-- Client (`type Client struct`). A Go map is the list of its bindings in the order in
which `range` visits them; the order is not specified by Go and is left arbitrary. -/
structure Client where
  ID : NodeID
  N : Int
  addrs : List (NodeID × String)
  http : List (NodeID × String)
  algorithm : String
  cid : Int
deriving DecidableEq, Repr

/-- Constructor `NewClient(id)` on the configuration maps `Addrs` and `HTTPAddrs`. -/
def NewClient (id : NodeID) (Addrs HTTPAddrs : List (NodeID × String)) (Algorithm : String) :
    Client :=
  { ID := id, N := Addrs.length, addrs := Addrs, http := HTTPAddrs, algorithm := Algorithm,
    cid := 0 }

/-- The loop that `QuorumGet` and `QuorumPut` share,
`for id := range c.http { i++; if i > c.N/2 { break }; go func(id ID) {...}(id) }`,
from the counter `i` over the bindings still to visit: the ids a goroutine is started
for, in order, and the counter when the loop is left. Go's `/` truncates. -/
def Client.quorumLoop (N : Int) : Int → List (NodeID × String) → List NodeID × Int
  | i, [] => ([], i)
  | i, b :: rest =>
    if i + 1 > Int.tdiv N 2 then
      ([], i + 1)
    else
      let r := Client.quorumLoop N (i + 1) rest
      (b.1 :: r.1, r.2)

/-- Method `(c *Client) QuorumPut(key, value)`: the client afterwards and the `rest` calls
of the goroutines it starts; `wait.Wait()` returns once they have all finished. -/
def Client.QuorumPut (c : Client) (key : Key) (value : Option Value) :
    Client × List RestCall :=
  let r := Client.quorumLoop c.N 0 c.http
  ({ c with cid := c.cid + 1 },
   r.1.map (fun id => { id := id, key := key, value := value }))

/-- What a call of `QuorumGet` does before it can return. -/
structure QuorumGetRun where
  /-- The client afterwards (`c.cid++`). -/
  client : Client
  /-- The `rest` calls of the goroutines started; each sends one value on `out`. -/
  calls : List RestCall
  /-- The number of values the loop `for ; i >= 0; i-- { set.Put(<-out) }` receives from
  `out` before the function goes on. -/
  receives : Nat
deriving DecidableEq, Repr

/-- Method `(c *Client) QuorumGet(key)` up to its receiving loop. The values received are
put in a `lib.CSet` (not among the sources) and returned in its order; they are not part
of the embedding. -/
def Client.QuorumGet (c : Client) (key : Key) : QuorumGetRun :=
  let r := Client.quorumLoop c.N 0 c.http
  { client := { c with cid := c.cid + 1 },
    calls := r.1.map (fun id => { id := id, key := key, value := none }),
    receives := (r.2 + 1).toNat }

/-- Whether the receiving loop of `QuorumGet` gets all the values it waits for: `out` is
unbuffered and carries one value per goroutine started. -/
def QuorumGetRun.returns (run : QuorumGetRun) : Bool :=
  decide (run.receives ≤ run.calls.length)

/-- The first loop of `Consensus`: `h[id]` is the history decoded from the answer of the
node's url, and stays the empty history when the request, the read or the decoding fails
(`fetch url = none`). -/
def Client.histories (c : Client) (fetch : String → Option (List Value)) :
    List (NodeID × List Value) :=
  c.http.foldl (fun h b => Map.set h b.1 ((fetch b.2).getD [])) []

/-- The loop `for _, v := range h { if len(v) > n { n = len(v) } }` from `n = 0`. -/
def Client.maxLen (h : List (NodeID × List Value)) : Nat :=
  h.foldl (fun n b => if b.2.length > n then b.2.length else n) 0

/-- Insertion `set[string(v)] = struct{}{}` into a Go set, kept as the list of its distinct
members; the conversion `string(v)` of a byte slice is injective. -/
def setPut (s : List Value) (v : Value) : List Value := if v ∈ s then s else s ++ [v]

/-- The set built for index `i` by
`for id := range c.http { if len(h[id]) > i { set[string(h[id][i])] = struct{}{} } }`. -/
def Client.column (c : Client) (h : List (NodeID × List Value)) (i : Nat) : List Value :=
  c.http.foldl
    (fun s b =>
      match Map.get h b.1 with
      | some l =>
        match l[i]? with
        | some v => setPut s v
        | none => s
      | none => s)
    []

/-- The loop `for i := 0; i < n; i++ { ...; if len(set) > 1 { return false } }` followed
by `return true`, from index `i` with `todo = n - i` iterations left. -/
def Client.consensusLoop (c : Client) (h : List (NodeID × List Value)) : Nat → Nat → Bool
  | 0, _ => true
  | todo + 1, i =>
    if (c.column h i).length > 1 then false else Client.consensusLoop c h todo (i + 1)

/-- Method `(c *Client) Consensus(k)`; `fetch url` is the history decoded from the answer
to `GET url/history?key=k`, if any. -/
def Client.Consensus (c : Client) (fetch : String → Option (List Value)) : Bool :=
  let h := c.histories fetch
  Client.consensusLoop c h (Client.maxLen h) 0

/-- The history a node contributes: the decoded one, or the empty one. -/
def nodeHistory (fetch : String → Option (List Value)) (b : NodeID × String) : List Value :=
  (fetch b.2).getD []

/-- A client of a three-node system, each node with an HTTP address. -/
def client3 : Client :=
  NewClient "1.1"
    [("1.1", "127.0.0.1:1735"), ("1.2", "127.0.0.1:1736"), ("2.1", "127.0.0.1:1737")]
    [("1.1", "http://127.0.0.1:8080"), ("1.2", "http://127.0.0.1:8081"),
     ("2.1", "http://127.0.0.1:8082")]
    "wpaxos"

/-- Histories of the three nodes of `client3`: equal up to length, the third node
unreachable. -/
def fetchAgree (url : String) : Option (List Value) :=
  if url = "http://127.0.0.1:8080" then some [[1], [2]]
  else if url = "http://127.0.0.1:8081" then some [[1]]
  else none

/-- Histories of the three nodes of `client3` that differ at position 1. -/
def fetchDiffer (url : String) : Option (List Value) :=
  if url = "http://127.0.0.1:8080" then some [[1], [2]]
  else if url = "http://127.0.0.1:8081" then some [[1]]
  else some [[1], [3]]

end Paxi

namespace Paxi

/-! ## Lemmas on maps -/

theorem Map.get_del_same {κ ν : Type} [DecidableEq κ] (m : List (κ × ν)) (k : κ) :
    Map.get (Map.del m k) k = none := by
  induction m with
  | nil => rfl
  | cons e rest ih =>
    obtain ⟨k1, v⟩ := e
    by_cases h : k1 = k
    · simpa [Map.del, List.filter_cons, h] using ih
    · simpa [Map.del, List.filter_cons, h, Map.get] using ih

theorem Map.get_del_ne {κ ν : Type} [DecidableEq κ] (m : List (κ × ν)) (k k2 : κ)
    (hne : k2 ≠ k) : Map.get (Map.del m k) k2 = Map.get m k2 := by
  induction m with
  | nil => rfl
  | cons e rest ih =>
    obtain ⟨k1, v⟩ := e
    have ih2 : Map.get (List.filter (fun e => decide (e.1 ≠ k)) rest) k2 = Map.get rest k2 := ih
    by_cases h : k1 = k
    · subst h
      have h2 : ¬ k1 = k2 := fun h3 => hne h3.symm
      simp only [Map.del, List.filter_cons, Map.get, h2, if_false]
      simpa using ih2
    · by_cases h2 : k1 = k2
      · subst h2
        have h3 : decide (k1 ≠ k) = true := by simpa using h
        simp only [Map.del, List.filter_cons, h3, if_true, Map.get]
      · have h3 : decide (k1 ≠ k) = true := by simpa using h
        simp only [Map.del, List.filter_cons, h3, if_true, Map.get, h2, if_false]
        exact ih2

theorem Map.get_set_same {κ ν : Type} [DecidableEq κ] (m : List (κ × ν)) (k : κ) (v : ν) :
    Map.get (Map.set m k v) k = some v := by
  simp [Map.set, Map.get]

theorem Map.get_set_ne {κ ν : Type} [DecidableEq κ] (m : List (κ × ν)) (k k2 : κ) (v : ν)
    (hne : k2 ≠ k) : Map.get (Map.set m k v) k2 = Map.get m k2 := by
  have h : ¬ k = k2 := fun h3 => hne h3.symm
  simp [Map.set, Map.get, h, Map.get_del_ne m k k2 hne]

theorem Map.mem_keys_of_get {κ ν : Type} [DecidableEq κ] (m : List (κ × ν)) (k : κ) (v : ν)
    (h : Map.get m k = some v) : k ∈ m.map Prod.fst := by
  induction m with
  | nil => simp [Map.get] at h
  | cons e rest ih =>
    obtain ⟨k1, v1⟩ := e
    by_cases h1 : k1 = k
    · simp [h1]
    · simp only [Map.get, h1, if_false] at h
      simp [ih h]

/-! ## Lemmas on the commit-advancing loop -/

theorem advance_ge (cmds : List (Int × Instance)) (fuel : Nat) (c : Int) :
    c ≤ advance cmds fuel c := by
  induction fuel generalizing c with
  | zero => simp [advance]
  | succ n ih =>
    simp only [advance]
    split
    · split
      · have := ih (c + 1)
        omega
      · exact le_refl c
    · exact le_refl c

theorem advance_committed (cmds : List (Int × Instance)) (fuel : Nat) (c s : Int)
    (h1 : c < s) (h2 : s ≤ advance cmds fuel c) :
    ∃ ins, Map.get cmds s = some ins ∧ ins.committed = true := by
  induction fuel generalizing c with
  | zero => simp [advance] at h2; omega
  | succ n ih =>
    simp only [advance] at h2
    split at h2
    · rename_i ins hget
      split at h2
      · rename_i hc
        by_cases hs : s = c + 1
        · exact ⟨ins, by rw [hs]; exact hget, hc⟩
        · exact ih (c + 1) (by omega) h2
      · omega
    · omega

theorem advance_le (cmds : List (Int × Instance)) (fuel : Nat) (c slot : Int)
    (hk : ∀ k ins, Map.get cmds k = some ins → k ≤ slot) (hc : c ≤ slot) :
    advance cmds fuel c ≤ slot := by
  induction fuel generalizing c with
  | zero => simpa [advance] using hc
  | succ n ih =>
    simp only [advance]
    split
    · rename_i ins hget
      split
      · exact ih (c + 1) (hk _ _ hget)
      · exact hc
    · exact hc

/-- Either the loop stopped because its condition failed, or it used all its fuel on
consecutive bound slots. -/
theorem advance_stop_or_full (cmds : List (Int × Instance)) (fuel : Nat) (c : Int) :
    (∀ ins, Map.get cmds (advance cmds fuel c + 1) = some ins → ins.committed = false) ∨
    (advance cmds fuel c = c + fuel ∧
      ∀ s, c < s → s ≤ c + fuel → ∃ ins, Map.get cmds s = some ins) := by
  induction fuel generalizing c with
  | zero =>
    right
    refine ⟨by simp [advance], ?_⟩
    intro s h1 h2
    simp at h2
    omega
  | succ n ih =>
    simp only [advance]
    split
    · rename_i ins hget
      split
      · rcases ih (c + 1) with h | ⟨h1, h2⟩
        · exact Or.inl h
        · right
          refine ⟨by rw [h1]; push_cast; ring, ?_⟩
          intro s hs1 hs2
          by_cases hs : s = c + 1
          · exact ⟨ins, by rw [hs]; exact hget⟩
          · exact h2 s (by omega) (by push_cast at hs2 ⊢; omega)
      · rename_i hc
        left
        intro ins2 h2
        rw [hget] at h2
        cases h2
        simpa using hc
    · rename_i hnone
      left
      intro ins2 h2
      rw [hnone] at h2
      cases h2

/-- A run of `n` consecutive bound slots needs at least `n` bindings. -/
theorem Map.consecutive_le_length (cmds : List (Int × Instance)) (c : Int) (n : Nat)
    (h : ∀ s, c < s → s ≤ c + n → ∃ ins, Map.get cmds s = some ins) : n ≤ cmds.length := by
  have hsub : Finset.Icc (c + 1) (c + n) ⊆ (cmds.map Prod.fst).toFinset := by
    intro s hs
    rw [Finset.mem_Icc] at hs
    obtain ⟨ins, hins⟩ := h s (by omega) hs.2
    exact List.mem_toFinset.mpr (Map.mem_keys_of_get cmds s ins hins)
  have h1 := Finset.card_le_card hsub
  have h2 : ((cmds.map Prod.fst).toFinset).card ≤ cmds.length := by
    calc ((cmds.map Prod.fst).toFinset).card ≤ (cmds.map Prod.fst).length :=
          List.toFinset_card_le _
      _ = cmds.length := List.length_map _ _
  rw [Int.card_Icc] at h1
  have h3 : (c + n + 1 - (c + 1)).toNat = n := by
    have : c + n + 1 - (c + 1) = (n : Int) := by ring
    rw [this]; simp
  omega

/-- The fuel `cmds.length` is enough: when `advanceCommit` returns, the loop condition is
false, as it is when the Go loop exits. -/
theorem advance_exit (cmds : List (Int × Instance)) (c : Int) :
    ∀ ins, Map.get cmds (advance cmds cmds.length c + 1) = some ins →
      ins.committed = false := by
  rcases advance_stop_or_full cmds cmds.length c with h | ⟨h1, h2⟩
  · exact h
  · intro ins hget
    exfalso
    have h3 : ∀ s, c < s → s ≤ c + ((cmds.length + 1 : Nat) : Int) →
        ∃ ins, Map.get cmds s = some ins := by
      intro s hs1 hs2
      by_cases hs : s ≤ c + cmds.length
      · exact h2 s hs1 hs
      · have : s = advance cmds cmds.length c + 1 := by rw [h1]; push_cast at hs2; omega
        exact ⟨ins, by rw [this]; exact hget⟩
    have := Map.consecutive_le_length cmds c (cmds.length + 1) h3
    omega

/-! ## Lemmas on `prepare`, `accept` and the draining loop -/

theorem paxos.prepare_frame (env : Env) (p : paxos) :
    (p.prepare env).1.cmds = p.cmds ∧ (p.prepare env).1.slot = p.slot ∧
    (p.prepare env).1.commit = p.commit ∧ (p.prepare env).1.requests = p.requests ∧
    (p.prepare env).1.active = p.active := by
  unfold paxos.prepare
  split <;> simp [paxos.NextBallot]

theorem paxos.prepare_ballot (env : Env) (p : paxos) :
    (p.prepare env).1.ballot = if p.active = false then env.NextBallot p.ballot env.ID
      else p.ballot := by
  unfold paxos.prepare
  split <;> simp [paxos.NextBallot]

/-- Inside the range of a Go `int` the reduction `wrap64` is the identity. -/
theorem wrap64_eq (x : Int) (h1 : MinInt64 ≤ x) (h2 : x ≤ MaxInt64) : wrap64 x = x := by
  unfold wrap64
  unfold MinInt64 at h1
  unfold MaxInt64 at h2
  omega

/-- Below `MaxInt64` the increment of a Go `int` adds one. -/
theorem wrap64_succ (x : Int) (h1 : MinInt64 ≤ x) (h2 : x < MaxInt64) :
    wrap64 (x + 1) = x + 1 := by
  unfold wrap64
  unfold MinInt64 at h1
  unfold MaxInt64 at h2
  omega

/-- At `MaxInt64` the increment of a Go `int` wraps to `MinInt64`. -/
theorem wrap64_max : wrap64 (MaxInt64 + 1) = MinInt64 := by
  unfold wrap64 MaxInt64 MinInt64
  omega

/-- Reducing a summand first does not change the reduced sum. -/
theorem wrap64_add (x y : Int) : wrap64 (wrap64 x + y) = wrap64 (x + y) := by
  unfold wrap64
  omega

/-- Fewer than `2^64` increments of a Go `int` do not come back to the value they
started from. -/
theorem wrap64_ne (x : Int) (j : Nat) (h1 : 1 ≤ j) (h2 : (j : Int) ≤ MaxInt64) :
    wrap64 x ≠ wrap64 (wrap64 x + j) := by
  unfold MaxInt64 at h2
  unfold wrap64
  omega

/-- The slots opened by at most `2^63 - 1` increments from a non-negative Go `int` are
above the starting slot or negative. -/
theorem wrap64_off (s k : Int) (j : Nat) (h0 : 0 ≤ s) (hs : s ≤ MaxInt64) (h1 : 1 ≤ j)
    (h2 : (j : Int) ≤ MaxInt64) (hk1 : 1 ≤ k) (hk2 : k ≤ s) : k ≠ wrap64 (s + j) := by
  unfold MaxInt64 at hs h2
  unfold wrap64
  omega

theorem paxos.accept_slot (env : Env) (p : paxos) (r : Request)
    (hmin : MinInt64 ≤ p.slot) (hmax : p.slot < MaxInt64) :
    (p.accept env r).1.slot = p.slot + 1 := by
  simp only [paxos.accept]
  exact wrap64_succ _ hmin hmax

theorem paxos.acceptAll_frame (env : Env) (p : paxos) (rs : List Request) :
    (paxos.acceptAll env p rs).1.ballot = p.ballot ∧
    (paxos.acceptAll env p rs).1.commit = p.commit ∧
    (paxos.acceptAll env p rs).1.active = p.active ∧
    (paxos.acceptAll env p rs).1.requests = p.requests := by
  induction rs generalizing p with
  | nil => simp [paxos.acceptAll]
  | cons r rest ih =>
    obtain ⟨h1, h2, h3, h4⟩ := ih (p.accept env r).1
    simp only [paxos.acceptAll]
    exact ⟨h1, h2, h3, h4⟩

/-- Short of overflow the draining loop raises the slot counter by the number of requests
it drains. -/
theorem paxos.acceptAll_slot (env : Env) (p : paxos) (rs : List Request)
    (hmin : MinInt64 ≤ p.slot) (hno : p.slot + rs.length ≤ MaxInt64) :
    (paxos.acceptAll env p rs).1.slot = p.slot + rs.length := by
  induction rs generalizing p with
  | nil => simp [paxos.acceptAll]
  | cons r rest ih =>
    simp only [List.length_cons, Nat.cast_add, Nat.cast_one] at hno
    have hs := paxos.accept_slot env p r hmin (by omega)
    simp only [paxos.acceptAll]
    rw [ih (p.accept env r).1 (by rw [hs]; omega) (by rw [hs]; omega), hs]
    simp only [List.length_cons, Nat.cast_add, Nat.cast_one]
    ring

/-- Short of overflow, entries at or below the slot counter are not touched by the
draining loop. -/
theorem paxos.acceptAll_get_le (env : Env) (p : paxos) (rs : List Request) (k : Int)
    (hmin : MinInt64 ≤ p.slot) (hno : p.slot + rs.length ≤ MaxInt64) (hk : k ≤ p.slot) :
    Map.get (paxos.acceptAll env p rs).1.cmds k = Map.get p.cmds k := by
  induction rs generalizing p with
  | nil => simp [paxos.acceptAll]
  | cons r rest ih =>
    simp only [List.length_cons, Nat.cast_add, Nat.cast_one] at hno
    have hs := paxos.accept_slot env p r hmin (by omega)
    simp only [paxos.acceptAll]
    rw [ih (p.accept env r).1 (by rw [hs]; omega) (by rw [hs]; omega) (by rw [hs]; omega)]
    simp only [paxos.accept]
    rw [wrap64_succ _ hmin (by omega)]
    exact Map.get_set_ne _ _ _ _ (by omega)

theorem paxos.acceptAll_keys (env : Env) (p : paxos) (rs : List Request)
    (hmin : MinInt64 ≤ p.slot) (hno : p.slot + rs.length ≤ MaxInt64)
    (hk : p.KeysBelowSlot) : (paxos.acceptAll env p rs).1.KeysBelowSlot := by
  induction rs generalizing p with
  | nil => simpa [paxos.acceptAll] using hk
  | cons r rest ih =>
    simp only [List.length_cons, Nat.cast_add, Nat.cast_one] at hno
    have hs := paxos.accept_slot env p r hmin (by omega)
    simp only [paxos.acceptAll]
    apply ih _ (by rw [hs]; omega) (by rw [hs]; omega)
    intro k ins hget
    rw [hs]
    simp only [paxos.accept] at hget
    rw [wrap64_succ _ hmin (by omega)] at hget
    by_cases h : k = p.slot + 1
    · omega
    · rw [Map.get_set_ne _ _ _ _ h] at hget
      have := hk k ins hget
      omega

/-- The draining loop touches only the slots it opens. -/
theorem paxos.acceptAll_get_off (env : Env) (p : paxos) (rs : List Request) (k : Int)
    (hk : ∀ j : Nat, 1 ≤ j → j ≤ rs.length → k ≠ wrap64 (p.slot + j)) :
    Map.get (paxos.acceptAll env p rs).1.cmds k = Map.get p.cmds k := by
  induction rs generalizing p with
  | nil => simp [paxos.acceptAll]
  | cons r rest ih =>
    simp only [paxos.acceptAll]
    rw [ih (p.accept env r).1]
    · simp only [paxos.accept]
      have h1 := hk 1 (le_refl 1) (by simp)
      exact Map.get_set_ne _ _ _ _ (by simpa using h1)
    · intro j h1 h2
      have h3 := hk (j + 1) (by omega) (by simp only [List.length_cons]; omega)
      simp only [paxos.accept]
      rw [wrap64_add]
      intro h4
      apply h3
      rw [h4]
      congr 1
      push_cast
      ring

/-- Every drained request ends up in the `request` field of an entry, also when the
slot counter overflows on the way, as long as the queue has the length of a Go slice. -/
theorem paxos.acceptAll_holds_wrap (env : Env) (p : paxos) (rs : List Request)
    (r : Request) (hlen : (rs.length : Int) ≤ MaxInt64) (hr : r ∈ rs) :
    ∃ k ins, Map.get (paxos.acceptAll env p rs).1.cmds k = some ins ∧
      ins.request = some r := by
  induction rs generalizing p with
  | nil => simp at hr
  | cons r1 rest ih =>
    simp only [List.length_cons, Nat.cast_add, Nat.cast_one] at hlen
    simp only [paxos.acceptAll]
    rcases List.mem_cons.mp hr with h | h
    · subst h
      refine ⟨wrap64 (p.slot + 1), ?_⟩
      rw [paxos.acceptAll_get_off env _ rest (wrap64 (p.slot + 1))
        (fun j h1 h2 => by
          have : (p.accept env r).1.slot = wrap64 (p.slot + 1) := rfl
          rw [this]
          exact wrap64_ne _ j h1 (by omega))]
      simp only [paxos.accept]
      rw [Map.get_set_same]
      exact ⟨_, rfl, rfl⟩
    · exact ih (p.accept env r1).1 (by omega) h

/-- Closed form of `handlePromise` when the promise completes Phase 1. -/
theorem paxos.handlePromise_win (env : Env) (p : paxos) (m : Promise) (q : Quorum)
    (hactive : p.active = false) (hb : m.Ballot = p.ballot)
    (hl : env.LeaderID m.Ballot = env.ID) (hq : p.quorum = some q)
    (hq1 : env.Q1 (q.ACK m.ID) = true) :
    p.handlePromise env m =
      some ({ (paxos.acceptAll env
                { p with slot := max p.slot m.PreSlot, quorum := some (q.ACK m.ID),
                         active := true } p.requests).1 with requests := [] },
            (paxos.acceptAll env
                { p with slot := max p.slot m.PreSlot, quorum := some (q.ACK m.ID),
                         active := true } p.requests).2) := by
  obtain ⟨mkey, mid, mballot, mpreslot⟩ := m
  simp only at hb hl hq1 ⊢
  subst hb
  by_cases hs : mpreslot > p.slot
  · have hmax : max p.slot mpreslot = mpreslot := max_eq_right (le_of_lt hs)
    simp [paxos.handlePromise, hactive, hl, hq, hq1, hs, hmax]
  · have hmax : max p.slot mpreslot = p.slot := max_eq_left (not_lt.mp hs)
    simp [paxos.handlePromise, hactive, hl, hq, hq1, hs, hmax]

/-- What `drains` says of the state and the promise. -/
theorem paxos.drains_true (env : Env) (p : paxos) (m : Promise)
    (h : p.drains env m = true) :
    p.active = false ∧ m.Ballot = p.ballot ∧ env.LeaderID m.Ballot = env.ID ∧
    ∃ q, p.quorum = some q ∧ env.Q1 (q.ACK m.ID) = true := by
  unfold paxos.drains at h
  simp only [Bool.and_eq_true, Bool.not_eq_true', decide_eq_true_eq] at h
  obtain ⟨⟨⟨h1, h2⟩, h3⟩, h4⟩ := h
  refine ⟨h1, h2, h3, ?_⟩
  split at h4
  · rename_i q hq
    exact ⟨q, hq, h4⟩
  · cases h4

/-- A `handlePromise` that completes without reaching the draining loop leaves `cmds`,
`requests` and `commit` as they were and does not lower `slot`. -/
theorem paxos.handlePromise_not_drains (env : Env) (p : paxos) (m : Promise)
    (r : paxos × List Effect) (hd : p.drains env m = false)
    (h : p.handlePromise env m = some r) :
    r.1.cmds = p.cmds ∧ r.1.requests = p.requests ∧ r.1.commit = p.commit ∧
    p.slot ≤ r.1.slot := by
  simp only [paxos.handlePromise] at h
  split_ifs at h <;> (try split at h) <;> (try split_ifs at h) <;> (try cases h)
  all_goals try dsimp only
  all_goals first
    | exact ⟨rfl, rfl, rfl, le_refl _⟩
    | exact ⟨rfl, rfl, rfl, by omega⟩
    | (exfalso
       rename_i hign _ hb _ q hq hq1
       have ha : p.active = false := by
         cases hp : p.active
         · rfl
         · exact absurd (Or.inr hp) hign
       try dsimp only at hb
       try dsimp only at hq
       simp [paxos.drains, ha, ← hb.1, hb.2, hq, hq1] at hd)

/-- A step that does not overflow the slot counter, when it is a `handlePromise` that
reaches the draining loop, drains within the range of a Go `int`. -/
theorem paxos.overflows_promise (env : Env) (p : paxos) (m : Promise)
    (hd : p.drains env m = true) (hno : p.overflows env (Input.promise m) = false) :
    max p.slot m.PreSlot + p.requests.length ≤ MaxInt64 := by
  simp only [paxos.overflows, hd, Bool.true_and, decide_eq_false_iff_not] at hno
  omega

/-- A step that does not overflow the slot counter, when it is a `handleRequest` on an
active replica, finds `slot` below `MaxInt64`. -/
theorem paxos.overflows_request (env : Env) (p : paxos) (msg : Request)
    (hact : p.active = true) (hno : p.overflows env (Input.request msg) = false) :
    p.slot < MaxInt64 := by
  simp only [paxos.overflows, hact, Bool.true_and, decide_eq_false_iff_not] at hno
  omega

/-! ## Ballot, commit index and slot counter along a step -/

theorem paxos.adoptBallot_frame (p : paxos) (b : Int) :
    (p.adoptBallot b).cmds = p.cmds ∧ (p.adoptBallot b).slot = p.slot ∧
    (p.adoptBallot b).commit = p.commit ∧ (p.adoptBallot b).requests = p.requests ∧
    p.ballot ≤ (p.adoptBallot b).ballot := by
  unfold paxos.adoptBallot
  split
  · simp; omega
  · simp

theorem Max_ge_left (a b : Int) : a ≤ Max a b := by
  unfold Max; split <;> omega

theorem Max_ge_right (a b : Int) : b ≤ Max a b := by
  unfold Max; split <;> omega

theorem paxos.advanceCommit_frame (p : paxos) :
    p.advanceCommit.cmds = p.cmds ∧ p.advanceCommit.slot = p.slot ∧
    p.advanceCommit.ballot = p.ballot ∧ p.advanceCommit.requests = p.requests ∧
    p.advanceCommit.active = p.active ∧ p.commit ≤ p.advanceCommit.commit := by
  simp [paxos.advanceCommit, advance_ge]

theorem paxos.handleRequest_ballot (env : Env) (hnb : ∀ b id, b < env.NextBallot b id)
    (p : paxos) (msg : Request) (r : paxos × List Effect)
    (h : p.handleRequest env msg = some r) : p.ballot ≤ r.1.ballot := by
  unfold paxos.handleRequest at h
  dsimp only at h
  split_ifs at h <;> cases h
  · simp [paxos.accept]
  · simp [paxos.accept]
  · simp
  · simp
  · rw [paxos.prepare_ballot]
    simp only [paxos.NextBallot]
    have h1 := hnb p.ballot env.ID
    have h2 := hnb (env.NextBallot p.ballot env.ID) env.ID
    split <;> omega

theorem paxos.handlePromise_ballot (env : Env)
    (p : paxos) (msg : Promise) (r : paxos × List Effect)
    (h : p.handlePromise env msg = some r) : p.ballot ≤ r.1.ballot := by
  unfold paxos.handlePromise at h
  dsimp only at h
  split_ifs at h <;> (try split at h) <;> (try split_ifs at h) <;> (try cases h)
  all_goals simp [(paxos.acceptAll_frame env _ _).1]
  all_goals omega

theorem paxos.handleAccepted_ballot (env : Env)
    (p : paxos) (msg : Accepted) (r : paxos × List Effect)
    (h : p.handleAccepted env msg = some r) : p.ballot ≤ r.1.ballot := by
  unfold paxos.handleAccepted at h
  dsimp only at h
  split at h
  · cases h; simp
  · split_ifs at h <;> (try split at h) <;> (try split_ifs at h) <;> (try split at h) <;>
      (try cases h)
    all_goals first
      | exact le_refl _
      | exact (paxos.adoptBallot_frame _ _).2.2.2.2

theorem paxos.prepare_ballot_ge (env : Env) (hnb : ∀ b id, b < env.NextBallot b id)
    (p : paxos) : p.ballot ≤ (p.prepare env).1.ballot := by
  rw [paxos.prepare_ballot]
  have h1 := hnb p.ballot env.ID
  split <;> omega

theorem paxos.step_ballot (env : Env) (hnb : ∀ b id, b < env.NextBallot b id)
    (p : paxos) (i : Input) (r : paxos × List Effect)
    (h : p.step env i = some r) : p.ballot ≤ r.1.ballot := by
  cases i with
  | request msg => exact paxos.handleRequest_ballot env hnb p msg r h
  | prepare msg =>
    simp only [paxos.step, paxos.handlePrepare] at h
    cases h
    dsimp only
    split_ifs <;> simp <;> omega
  | promise msg => exact paxos.handlePromise_ballot env p msg r h
  | accept msg =>
    simp only [paxos.step, paxos.handleAccept] at h
    cases h
    dsimp only
    split_ifs
    · simpa using (by omega : p.ballot ≤ msg.Ballot)
    · simp
  | accepted msg => exact paxos.handleAccepted_ballot env p msg r h
  | commit msg =>
    simp only [paxos.step, paxos.handleCommit] at h
    cases h
    rw [(paxos.advanceCommit_frame _).2.2.1]
    dsimp only
    split_ifs <;> simp <;> omega
  | leaderChange msg =>
    simp only [paxos.step, paxos.handleLeaderChange] at h
    split_ifs at h
    all_goals cases h
    · exact le_trans (Max_ge_left _ _) (paxos.prepare_ballot_ge env hnb _)
    · exact le_refl _
  | retry =>
    simp only [paxos.step, paxos.retryPrepare] at h
    cases h
    exact paxos.prepare_ballot_ge env hnb p

/-- Closed form of `handleCommit`. -/
theorem paxos.handleCommit_eq (p : paxos) (msg : Commit) :
    p.handleCommit msg = some (paxos.advanceCommit
      { p with
          ballot := max p.ballot msg.Ballot, slot := max p.slot msg.Slot,
          cmds := Map.set p.cmds msg.Slot
            (match Map.get p.cmds msg.Slot with
             | none =>
               { commands := msg.Commands, ballot := msg.Ballot, committed := true,
                 request := none, quorum := none }
             | some ins => { ins with committed := true }) }, []) := by
  unfold paxos.handleCommit
  dsimp only
  by_cases h1 : msg.Ballot > p.ballot <;> by_cases h2 : msg.Slot > p.slot
  · simp only [h1, h2, if_true, max_eq_right (le_of_lt h1), max_eq_right (le_of_lt h2)]
  · simp only [h1, h2, if_true, if_false, max_eq_right (le_of_lt h1),
      max_eq_left (not_lt.mp h2)]
  · simp only [h1, h2, if_true, if_false, max_eq_left (not_lt.mp h1),
      max_eq_right (le_of_lt h2)]
  · simp only [h1, h2, if_false, max_eq_left (not_lt.mp h1), max_eq_left (not_lt.mp h2)]

theorem paxos.step_commit (env : Env) (p : paxos) (i : Input) (r : paxos × List Effect)
    (h : p.step env i = some r) :
    p.commit ≤ r.1.commit ∧
    (r.1.commit ≠ p.commit → (∃ m, i = Input.accepted m) ∨ (∃ m, i = Input.commit m)) := by
  cases i with
  | request msg =>
    simp only [paxos.step, paxos.handleRequest] at h
    split_ifs at h
    all_goals cases h
    all_goals simp [paxos.accept, (paxos.prepare_frame env _).2.2.1, paxos.NextBallot]
  | prepare msg =>
    simp only [paxos.step, paxos.handlePrepare] at h
    cases h
    dsimp only
    split_ifs <;> simp
  | promise msg =>
    simp only [paxos.step, paxos.handlePromise] at h
    split_ifs at h <;> (try split at h) <;> (try split_ifs at h) <;> (try cases h)
    all_goals simp [(paxos.acceptAll_frame env _ _).2.1]
  | accept msg =>
    simp only [paxos.step, paxos.handleAccept] at h
    cases h
    dsimp only
    split_ifs <;> simp
  | accepted msg =>
    refine ⟨?_, fun _ => Or.inl ⟨msg, rfl⟩⟩
    simp only [paxos.step, paxos.handleAccepted] at h
    split at h
    · cases h; simp
    · split_ifs at h <;> (try split at h) <;> (try split_ifs at h) <;> (try split at h) <;>
        (try cases h)
      all_goals simp only [(paxos.adoptBallot_frame _ _).2.2.1]
      all_goals first
        | exact le_refl _
        | exact (paxos.advanceCommit_frame _).2.2.2.2.2
  | commit msg =>
    refine ⟨?_, fun _ => Or.inr ⟨msg, rfl⟩⟩
    simp only [paxos.step, paxos.handleCommit] at h
    cases h
    refine le_trans ?_ (paxos.advanceCommit_frame _).2.2.2.2.2
    dsimp only
    split_ifs <;> simp
  | leaderChange msg =>
    simp only [paxos.step, paxos.handleLeaderChange] at h
    split_ifs at h
    all_goals cases h
    all_goals simp [(paxos.prepare_frame env _).2.2.1]
  | retry =>
    simp only [paxos.step, paxos.retryPrepare] at h
    cases h
    simp [(paxos.prepare_frame env _).2.2.1]

/-! ## The invariant `commit ≤ slot` -/

theorem Map.keys_set (m : List (Int × Instance)) (k0 s : Int) (v : Instance)
    (hk : ∀ k ins, Map.get m k = some ins → k ≤ s) (h0 : k0 ≤ s) :
    ∀ k ins, Map.get (Map.set m k0 v) k = some ins → k ≤ s := by
  intro k ins hget
  by_cases h : k = k0
  · omega
  · rw [Map.get_set_ne _ _ _ _ h] at hget
    exact hk k ins hget

theorem Map.keys_del (m : List (Int × Instance)) (k0 s : Int)
    (hk : ∀ k ins, Map.get m k = some ins → k ≤ s) :
    ∀ k ins, Map.get (Map.del m k0) k = some ins → k ≤ s := by
  intro k ins hget
  by_cases h : k = k0
  · rw [h, Map.get_del_same] at hget
    cases hget
  · rw [Map.get_del_ne _ _ _ h] at hget
    exact hk k ins hget

theorem paxos.acceptAll_inv (env : Env) (p : paxos) (rs : List Request) (s0 : Int)
    (hmin : MinInt64 ≤ p.slot) (hno : p.slot + rs.length ≤ MaxInt64)
    (hk : ∀ k ins, Map.get p.cmds k = some ins → k ≤ p.slot) (hc : p.commit ≤ p.slot)
    (hs : s0 ≤ p.slot) :
    (∀ k ins, Map.get (paxos.acceptAll env p rs).1.cmds k = some ins →
      k ≤ (paxos.acceptAll env p rs).1.slot) ∧
    (paxos.acceptAll env p rs).1.commit ≤ (paxos.acceptAll env p rs).1.slot ∧
    s0 ≤ (paxos.acceptAll env p rs).1.slot := by
  refine ⟨paxos.acceptAll_keys env p rs hmin hno hk, ?_, ?_⟩
  · rw [(paxos.acceptAll_frame env p rs).2.1, paxos.acceptAll_slot env p rs hmin hno]
    omega
  · rw [paxos.acceptAll_slot env p rs hmin hno]
    omega

theorem paxos.advanceCommit_inv (p : paxos) (s0 : Int)
    (hk : ∀ k ins, Map.get p.cmds k = some ins → k ≤ p.slot) (hc : p.commit ≤ p.slot)
    (hs : s0 ≤ p.slot) :
    (∀ k ins, Map.get p.advanceCommit.cmds k = some ins → k ≤ p.advanceCommit.slot) ∧
    p.advanceCommit.commit ≤ p.advanceCommit.slot ∧ s0 ≤ p.advanceCommit.slot :=
  ⟨hk, advance_le p.cmds p.cmds.length p.commit p.slot hk hc, hs⟩

/-- Every step that does not overflow the slot counter keeps the slot bound of `cmds` and
`commit ≤ slot`, and does not lower `slot`. -/
theorem paxos.step_inv (env : Env) (p : paxos) (i : Input) (r : paxos × List Effect)
    (hk : p.KeysBelowSlot) (hc : p.commit ≤ p.slot) (hmin : MinInt64 ≤ p.slot)
    (hno : p.overflows env i = false) (h : p.step env i = some r) :
    r.1.KeysBelowSlot ∧ r.1.commit ≤ r.1.slot ∧ p.slot ≤ r.1.slot := by
  unfold paxos.KeysBelowSlot at hk ⊢
  cases i with
  | request msg =>
    simp only [paxos.step, paxos.handleRequest] at h
    split_ifs at h with hact
    all_goals cases h
    all_goals simp only [paxos.accept, (paxos.prepare_frame env _).1,
      (paxos.prepare_frame env _).2.1, (paxos.prepare_frame env _).2.2.1, paxos.NextBallot]
    · rw [wrap64_succ _ hmin (paxos.overflows_request env p msg hact hno)]
      exact ⟨Map.keys_set _ _ _ _ (fun k ins hg => by have := hk k ins hg; omega)
        (le_refl _), by omega, by omega⟩
    · rw [wrap64_succ _ hmin (paxos.overflows_request env p msg hact hno)]
      exact ⟨Map.keys_set _ _ _ _ (fun k ins hg => by have := hk k ins hg; omega)
        (le_refl _), by omega, by omega⟩
    · exact ⟨hk, hc, le_refl _⟩
    · exact ⟨hk, hc, le_refl _⟩
    · exact ⟨hk, hc, le_refl _⟩
  | prepare msg =>
    simp only [paxos.step, paxos.handlePrepare] at h
    cases h
    dsimp only
    split_ifs
    all_goals exact ⟨hk, hc, le_refl _⟩
  | promise msg =>
    simp only [paxos.step] at h
    by_cases hd : p.drains env msg = true
    · obtain ⟨hact, hb, hl, q, hq, hq1⟩ := paxos.drains_true env p msg hd
      have hbound := paxos.overflows_promise env p msg hd hno
      rw [paxos.handlePromise_win env p msg q hact hb hl hq hq1] at h
      cases h
      exact paxos.acceptAll_inv env _ _ p.slot (le_trans hmin (le_max_left _ _)) hbound
        (fun k ins hg => le_trans (hk k ins hg) (le_max_left _ _))
        (le_trans hc (le_max_left _ _)) (le_max_left _ _)
    · obtain ⟨h1, _, h3, h4⟩ :=
        paxos.handlePromise_not_drains env p msg r (by simpa using hd) h
      rw [h1, h3]
      exact ⟨fun k ins hg => le_trans (hk k ins hg) h4, le_trans hc h4, h4⟩
  | accept msg =>
    simp only [paxos.step, paxos.handleAccept] at h
    cases h
    dsimp only
    split_ifs
    · refine ⟨Map.keys_set _ _ _ _ (fun k ins hg => ?_) (Max_ge_right _ _), ?_,
        Max_ge_left _ _⟩
      · exact le_trans (hk k ins hg) (Max_ge_left _ _)
      · exact le_trans hc (Max_ge_left _ _)
    · exact ⟨hk, hc, le_refl _⟩
  | accepted msg =>
    simp only [paxos.step, paxos.handleAccepted] at h
    split at h
    · cases h; exact ⟨hk, hc, le_refl _⟩
    · rename_i ins hget
      have hslot := hk _ _ hget
      split_ifs at h <;> (try split at h) <;> (try split_ifs at h) <;> (try split at h) <;>
        (try cases h)
      all_goals simp only [(paxos.adoptBallot_frame _ _).1,
        (paxos.adoptBallot_frame _ _).2.1, (paxos.adoptBallot_frame _ _).2.2.1]
      all_goals first
        | exact ⟨hk, hc, le_refl _⟩
        | exact paxos.advanceCommit_inv _ p.slot (Map.keys_set _ _ _ _ hk hslot) hc (le_refl _)
        | exact ⟨Map.keys_set _ _ _ _ hk hslot, hc, le_refl _⟩
        | exact ⟨Map.keys_del _ _ _ hk, hc, le_refl _⟩
  | commit msg =>
    simp only [paxos.step, paxos.handleCommit_eq] at h
    cases h
    exact paxos.advanceCommit_inv _ p.slot
      (Map.keys_set _ _ _ _ (fun k ins hg => le_trans (hk k ins hg) (le_max_left _ _))
        (le_max_right _ _))
      (le_trans hc (le_max_left _ _)) (le_max_left _ _)
  | leaderChange msg =>
    simp only [paxos.step, paxos.handleLeaderChange] at h
    split_ifs at h
    all_goals cases h
    all_goals simp only [(paxos.prepare_frame env _).1,
      (paxos.prepare_frame env _).2.1, (paxos.prepare_frame env _).2.2.1]
    all_goals exact ⟨hk, hc, le_refl _⟩
  | retry =>
    simp only [paxos.step, paxos.retryPrepare] at h
    cases h
    simp only [(paxos.prepare_frame env _).1,
      (paxos.prepare_frame env _).2.1, (paxos.prepare_frame env _).2.2.1]
    exact ⟨hk, hc, le_refl _⟩

theorem Map.reqkeys_set (m : List (Int × Instance)) (k0 : Int) (v : Instance)
    (hr : ∀ k ins req, Map.get m k = some ins → ins.request = some req → 1 ≤ k)
    (hv : ∀ req, v.request = some req → 1 ≤ k0) :
    ∀ k ins req, Map.get (Map.set m k0 v) k = some ins → ins.request = some req →
      1 ≤ k := by
  intro k ins req hget hreq
  by_cases h : k = k0
  · subst h
    rw [Map.get_set_same] at hget
    cases hget
    exact hv req hreq
  · rw [Map.get_set_ne _ _ _ _ h] at hget
    exact hr k ins req hget hreq

theorem Map.reqkeys_del (m : List (Int × Instance)) (k0 : Int)
    (hr : ∀ k ins req, Map.get m k = some ins → ins.request = some req → 1 ≤ k) :
    ∀ k ins req, Map.get (Map.del m k0) k = some ins → ins.request = some req →
      1 ≤ k := by
  intro k ins req hget hreq
  by_cases h : k = k0
  · rw [h, Map.get_del_same] at hget
    cases hget
  · rw [Map.get_del_ne _ _ _ h] at hget
    exact hr k ins req hget hreq

theorem paxos.acceptAll_reqkeys (env : Env) (p : paxos) (rs : List Request)
    (h0 : 0 ≤ p.slot) (hno : p.slot + rs.length ≤ MaxInt64)
    (hr : p.RequestSlotsPositive) : (paxos.acceptAll env p rs).1.RequestSlotsPositive := by
  induction rs generalizing p with
  | nil => simpa [paxos.acceptAll] using hr
  | cons r rest ih =>
    simp only [List.length_cons, Nat.cast_add, Nat.cast_one] at hno
    have hmin : MinInt64 ≤ p.slot := le_trans (by decide) h0
    have hs := paxos.accept_slot env p r hmin (by omega)
    simp only [paxos.acceptAll]
    apply ih _ (by rw [hs]; omega) (by rw [hs]; omega)
    unfold paxos.RequestSlotsPositive
    simp only [paxos.accept]
    rw [wrap64_succ _ hmin (by omega)]
    exact Map.reqkeys_set _ _ _ hr (fun _ _ => by omega)

/-- Every step that does not overflow the slot counter, taken with `0 ≤ slot`, keeps the
slots of the entries that hold a request at 1 or above. -/
theorem paxos.step_reqkeys (env : Env) (p : paxos) (i : Input) (r : paxos × List Effect)
    (hr : p.RequestSlotsPositive) (h0 : 0 ≤ p.slot)
    (hno : p.overflows env i = false) (h : p.step env i = some r) :
    r.1.RequestSlotsPositive := by
  have hmin : MinInt64 ≤ p.slot := le_trans (by decide) h0
  unfold paxos.RequestSlotsPositive at hr ⊢
  cases i with
  | request msg =>
    simp only [paxos.step, paxos.handleRequest] at h
    split_ifs at h with hact
    all_goals cases h
    all_goals simp only [paxos.accept, (paxos.prepare_frame env _).1, paxos.NextBallot]
    · rw [wrap64_succ _ hmin (paxos.overflows_request env p msg hact hno)]
      exact Map.reqkeys_set _ _ _ hr (fun _ _ => by omega)
    · rw [wrap64_succ _ hmin (paxos.overflows_request env p msg hact hno)]
      exact Map.reqkeys_set _ _ _ hr (fun _ _ => by omega)
    · exact hr
    · exact hr
    · exact hr
  | prepare msg =>
    simp only [paxos.step, paxos.handlePrepare] at h
    cases h
    dsimp only
    split_ifs
    all_goals exact hr
  | promise msg =>
    simp only [paxos.step] at h
    by_cases hd : p.drains env msg = true
    · obtain ⟨hact, hb, hl, q, hq, hq1⟩ := paxos.drains_true env p msg hd
      have hbound := paxos.overflows_promise env p msg hd hno
      rw [paxos.handlePromise_win env p msg q hact hb hl hq hq1] at h
      cases h
      exact paxos.acceptAll_reqkeys env _ _ (le_trans h0 (le_max_left _ _)) hbound hr
    · obtain ⟨h1, _, _, _⟩ :=
        paxos.handlePromise_not_drains env p msg r (by simpa using hd) h
      rw [h1]
      exact hr
  | accept msg =>
    simp only [paxos.step, paxos.handleAccept] at h
    cases h
    dsimp only
    split_ifs
    · exact Map.reqkeys_set _ _ _ hr (fun _ hreq => by cases hreq)
    · exact hr
  | accepted msg =>
    simp only [paxos.step, paxos.handleAccepted] at h
    split at h
    · cases h; exact hr
    · rename_i ins hget
      have hv : ∀ req, ins.request = some req → 1 ≤ msg.Slot :=
        fun req hreq => hr _ _ req hget hreq
      split_ifs at h <;> (try split at h) <;> (try split_ifs at h) <;> (try split at h) <;>
        (try cases h)
      all_goals simp only [(paxos.adoptBallot_frame _ _).1, (paxos.advanceCommit_frame _).1]
      all_goals first
        | exact hr
        | exact Map.reqkeys_set _ _ _ hr hv
        | exact Map.reqkeys_del _ _ hr
  | commit msg =>
    simp only [paxos.step, paxos.handleCommit_eq] at h
    cases h
    simp only [(paxos.advanceCommit_frame _).1]
    refine Map.reqkeys_set _ _ _ hr ?_
    intro req hreq
    split at hreq
    · cases hreq
    · rename_i ins hget
      exact hr _ _ req hget hreq
  | leaderChange msg =>
    simp only [paxos.step, paxos.handleLeaderChange] at h
    split_ifs at h
    all_goals cases h
    all_goals simp only [(paxos.prepare_frame env _).1]
    all_goals exact hr
  | retry =>
    simp only [paxos.step, paxos.retryPrepare] at h
    cases h
    simp only [(paxos.prepare_frame env _).1]
    exact hr

/-! ## Committed entries along a step -/

/-- A committed entry at or below the slot counter survives every step that does not
overflow the slot counter, except an `Accept` that is adopted for that very slot. -/
theorem paxos.step_keeps_committed (env : Env) (p : paxos) (i : Input)
    (r : paxos × List Effect) (s : Int) (ins : Instance)
    (hs : Map.get p.cmds s = some ins) (hc : ins.committed = true) (hslot : s ≤ p.slot)
    (hmin : MinInt64 ≤ p.slot) (hno : p.overflows env i = false)
    (hi : ∀ m, i = Input.accept m → m.Ballot ≥ p.ballot → m.Slot ≠ s)
    (h : p.step env i = some r) :
    ∃ ins2, Map.get r.1.cmds s = some ins2 ∧ ins2.committed = true ∧
      ins2.commands = ins.commands := by
  have keep : ∃ ins2, Map.get p.cmds s = some ins2 ∧ ins2.committed = true ∧
      ins2.commands = ins.commands := ⟨ins, hs, hc, rfl⟩
  cases i with
  | request msg =>
    simp only [paxos.step, paxos.handleRequest] at h
    split_ifs at h with hact
    all_goals cases h
    all_goals simp only [paxos.accept, (paxos.prepare_frame env _).1, paxos.NextBallot]
    · rw [wrap64_succ _ hmin (paxos.overflows_request env p msg hact hno),
        Map.get_set_ne _ _ _ _ (by omega)]
      exact keep
    · rw [wrap64_succ _ hmin (paxos.overflows_request env p msg hact hno),
        Map.get_set_ne _ _ _ _ (by omega)]
      exact keep
    · exact keep
    · exact keep
    · exact keep
  | prepare msg =>
    simp only [paxos.step, paxos.handlePrepare] at h
    cases h
    dsimp only
    split_ifs
    all_goals exact keep
  | promise msg =>
    simp only [paxos.step] at h
    by_cases hd : p.drains env msg = true
    · obtain ⟨hact, hb, hl, q, hq, hq1⟩ := paxos.drains_true env p msg hd
      have hbound := paxos.overflows_promise env p msg hd hno
      rw [paxos.handlePromise_win env p msg q hact hb hl hq hq1] at h
      cases h
      dsimp only
      rw [paxos.acceptAll_get_le env _ _ s (le_trans hmin (le_max_left _ _)) hbound
        (le_trans hslot (le_max_left _ _))]
      exact keep
    · obtain ⟨h1, _, _, _⟩ :=
        paxos.handlePromise_not_drains env p msg r (by simpa using hd) h
      rw [h1]
      exact keep
  | accept msg =>
    simp only [paxos.step, paxos.handleAccept] at h
    cases h
    dsimp only
    split_ifs with hb
    · dsimp only
      rw [Map.get_set_ne _ _ _ _ (fun h2 => hi msg rfl hb h2.symm)]
      exact keep
    · exact keep
  | accepted msg =>
    simp only [paxos.step, paxos.handleAccepted] at h
    split at h
    · cases h; exact keep
    · rename_i ins0 hget
      by_cases hsl : msg.Slot = s
      · rw [hsl, hs] at hget
        cases hget
        simp only [hc, true_or, if_true] at h
        cases h
        exact keep
      · have hne : s ≠ msg.Slot := fun h2 => hsl h2.symm
        split_ifs at h <;> (try split at h) <;> (try split_ifs at h) <;> (try split at h) <;>
          (try cases h)
        all_goals simp only [(paxos.adoptBallot_frame _ _).1,
          (paxos.advanceCommit_frame _).1]
        all_goals first
          | exact keep
          | (rw [Map.get_set_ne _ _ _ _ hne]; exact keep)
          | (rw [Map.get_del_ne _ _ _ hne]; exact keep)
  | commit msg =>
    simp only [paxos.step, paxos.handleCommit_eq] at h
    cases h
    simp only [(paxos.advanceCommit_frame _).1]
    by_cases hsl : s = msg.Slot
    · subst hsl
      rw [Map.get_set_same, hs]
      exact ⟨_, rfl, rfl, rfl⟩
    · rw [Map.get_set_ne _ _ _ _ hsl]
      exact keep
  | leaderChange msg =>
    simp only [paxos.step, paxos.handleLeaderChange] at h
    split_ifs at h
    all_goals cases h
    all_goals simp only [(paxos.prepare_frame env _).1]
    all_goals exact keep
  | retry =>
    simp only [paxos.step, paxos.retryPrepare] at h
    cases h
    simp only [(paxos.prepare_frame env _).1]
    exact keep

/-- An entry at or below the slot counter that is committed, or is uncommitted with
neither request nor quorum tracker (what `handleAccept` records), is bound to an entry of
one of these two kinds after every step that completes without overflowing the slot
counter. An `Accept` adopted for the slot leaves the second kind, a `Commit` for the slot
the first, and `handleAccepted` does not complete on the second kind unless it ignores the
message. -/
theorem paxos.step_keeps_settled (env : Env) (p : paxos) (i : Input)
    (r : paxos × List Effect) (s : Int) (ins : Instance)
    (hs : Map.get p.cmds s = some ins)
    (hc : ins.committed = true ∨
      (ins.committed = false ∧ ins.request = none ∧ ins.quorum = none))
    (hslot : s ≤ p.slot) (hmin : MinInt64 ≤ p.slot) (hno : p.overflows env i = false)
    (h : p.step env i = some r) :
    ∃ ins2, Map.get r.1.cmds s = some ins2 ∧
      (ins2.committed = true ∨
        (ins2.committed = false ∧ ins2.request = none ∧ ins2.quorum = none)) := by
  have keep : ∃ ins2, Map.get p.cmds s = some ins2 ∧
      (ins2.committed = true ∨
        (ins2.committed = false ∧ ins2.request = none ∧ ins2.quorum = none)) :=
    ⟨ins, hs, hc⟩
  cases i with
  | request msg =>
    simp only [paxos.step, paxos.handleRequest] at h
    split_ifs at h with hact
    all_goals cases h
    all_goals simp only [paxos.accept, (paxos.prepare_frame env _).1, paxos.NextBallot]
    · rw [wrap64_succ _ hmin (paxos.overflows_request env p msg hact hno),
        Map.get_set_ne _ _ _ _ (by omega)]
      exact keep
    · rw [wrap64_succ _ hmin (paxos.overflows_request env p msg hact hno),
        Map.get_set_ne _ _ _ _ (by omega)]
      exact keep
    · exact keep
    · exact keep
    · exact keep
  | prepare msg =>
    simp only [paxos.step, paxos.handlePrepare] at h
    cases h
    dsimp only
    split_ifs
    all_goals exact keep
  | promise msg =>
    simp only [paxos.step] at h
    by_cases hd : p.drains env msg = true
    · obtain ⟨hact, hb, hl, q, hq, hq1⟩ := paxos.drains_true env p msg hd
      have hbound := paxos.overflows_promise env p msg hd hno
      rw [paxos.handlePromise_win env p msg q hact hb hl hq hq1] at h
      cases h
      dsimp only
      rw [paxos.acceptAll_get_le env _ _ s (le_trans hmin (le_max_left _ _)) hbound
        (le_trans hslot (le_max_left _ _))]
      exact keep
    · obtain ⟨h1, _, _, _⟩ :=
        paxos.handlePromise_not_drains env p msg r (by simpa using hd) h
      rw [h1]
      exact keep
  | accept msg =>
    simp only [paxos.step, paxos.handleAccept] at h
    cases h
    dsimp only
    split_ifs with hb
    · dsimp only
      by_cases hsl : s = msg.Slot
      · subst hsl
        rw [Map.get_set_same]
        exact ⟨_, rfl, Or.inr ⟨rfl, rfl, rfl⟩⟩
      · rw [Map.get_set_ne _ _ _ _ hsl]
        exact keep
    · exact keep
  | accepted msg =>
    simp only [paxos.step, paxos.handleAccepted] at h
    split at h
    · cases h; exact keep
    · rename_i ins0 hget
      by_cases hsl : msg.Slot = s
      · rw [hsl, hs] at hget
        cases hget
        rcases hc with hc | ⟨_, hreq, hq⟩
        · simp only [hc, true_or, if_true] at h
          cases h
          exact keep
        · simp only [hreq, hq] at h
          split_ifs at h
          cases h
          exact keep
      · have hne : s ≠ msg.Slot := fun h2 => hsl h2.symm
        split_ifs at h <;> (try split at h) <;> (try split_ifs at h) <;> (try split at h) <;>
          (try cases h)
        all_goals simp only [(paxos.adoptBallot_frame _ _).1,
          (paxos.advanceCommit_frame _).1]
        all_goals first
          | exact keep
          | (rw [Map.get_set_ne _ _ _ _ hne]; exact keep)
          | (rw [Map.get_del_ne _ _ _ hne]; exact keep)
  | commit msg =>
    simp only [paxos.step, paxos.handleCommit_eq] at h
    cases h
    simp only [(paxos.advanceCommit_frame _).1]
    by_cases hsl : s = msg.Slot
    · subst hsl
      rw [Map.get_set_same, hs]
      exact ⟨_, rfl, Or.inl rfl⟩
    · rw [Map.get_set_ne _ _ _ _ hsl]
      exact keep
  | leaderChange msg =>
    simp only [paxos.step, paxos.handleLeaderChange] at h
    split_ifs at h
    all_goals cases h
    all_goals simp only [(paxos.prepare_frame env _).1]
    all_goals exact keep
  | retry =>
    simp only [paxos.step, paxos.retryPrepare] at h
    cases h
    simp only [(paxos.prepare_frame env _).1]
    exact keep

/-- The slots a step adds to the committed prefix are bound and committed. -/
theorem paxos.step_new_prefix (env : Env) (p : paxos) (i : Input)
    (r : paxos × List Effect) (h : p.step env i = some r) (s : Int)
    (h1 : p.commit < s) (h2 : s ≤ r.1.commit) :
    ∃ ins, Map.get r.1.cmds s = some ins ∧ ins.committed = true := by
  cases i with
  | accepted msg =>
    simp only [paxos.step, paxos.handleAccepted] at h
    split at h
    · cases h; dsimp only at h2; omega
    · split_ifs at h <;> (try split at h) <;> (try split_ifs at h) <;> (try split at h) <;>
        (try cases h)
      all_goals simp only [(paxos.adoptBallot_frame _ _).1,
        (paxos.adoptBallot_frame _ _).2.2.1] at h2 ⊢
      all_goals first
        | omega
        | exact advance_committed _ _ _ s h1 h2
  | commit msg =>
    simp only [paxos.step, paxos.handleCommit_eq] at h
    cases h
    exact advance_committed _ _ _ s h1 h2
  | request msg =>
    have := (paxos.step_commit env p _ r h).2
    by_cases hne : r.1.commit = p.commit
    · omega
    · rcases this hne with ⟨m, hm⟩ | ⟨m, hm⟩ <;> cases hm
  | prepare msg =>
    have := (paxos.step_commit env p _ r h).2
    by_cases hne : r.1.commit = p.commit
    · omega
    · rcases this hne with ⟨m, hm⟩ | ⟨m, hm⟩ <;> cases hm
  | promise msg =>
    have := (paxos.step_commit env p _ r h).2
    by_cases hne : r.1.commit = p.commit
    · omega
    · rcases this hne with ⟨m, hm⟩ | ⟨m, hm⟩ <;> cases hm
  | accept msg =>
    have := (paxos.step_commit env p _ r h).2
    by_cases hne : r.1.commit = p.commit
    · omega
    · rcases this hne with ⟨m, hm⟩ | ⟨m, hm⟩ <;> cases hm
  | leaderChange msg =>
    have := (paxos.step_commit env p _ r h).2
    by_cases hne : r.1.commit = p.commit
    · omega
    · rcases this hne with ⟨m, hm⟩ | ⟨m, hm⟩ <;> cases hm
  | retry =>
    have := (paxos.step_commit env p _ r h).2
    by_cases hne : r.1.commit = p.commit
    · omega
    · rcases this hne with ⟨m, hm⟩ | ⟨m, hm⟩ <;> cases hm

/-! ## Requests along a step -/

/-- A request stays held when the queue only grows and every entry keeps its request. -/
theorem paxos.Holds_of_agree (p p2 : paxos) (q : Request)
    (hreq : ∀ x, x ∈ p.requests → x ∈ p2.requests)
    (hcm : ∀ k ins, Map.get p.cmds k = some ins → ins.request = some q →
      ∃ ins2, Map.get p2.cmds k = some ins2 ∧ ins2.request = some q)
    (hq : p.Holds q) : p2.Holds q := by
  rcases hq with h | ⟨k, ins, h1, h2⟩
  · exact Or.inl (hreq q h)
  · obtain ⟨ins2, h3, h4⟩ := hcm k ins h1 h2
    exact Or.inr ⟨k, ins2, h3, h4⟩

theorem paxos.Holds_adoptBallot (p : paxos) (b : Int) (q : Request) :
    (p.adoptBallot b).Holds q ↔ p.Holds q := by
  unfold paxos.Holds
  rw [(paxos.adoptBallot_frame p b).1, (paxos.adoptBallot_frame p b).2.2.2.1]

/-- Rebinding a slot to an entry with the same request keeps every request held. -/
theorem paxos.Holds_set (p p2 : paxos) (q : Request) (k0 : Int) (ins0 v : Instance)
    (hget : Map.get p.cmds k0 = some ins0) (hcm : p2.cmds = Map.set p.cmds k0 v)
    (hreq : p2.requests = p.requests) (hv : v.request = ins0.request)
    (hq : p.Holds q) : p2.Holds q := by
  refine paxos.Holds_of_agree p p2 q (fun x hx => by rw [hreq]; exact hx) ?_ hq
  intro k ins h1 h2
  rw [hcm]
  by_cases hsl : k = k0
  · subst hsl
    rw [hget] at h1
    cases h1
    exact ⟨v, Map.get_set_same _ _ _, by rw [hv]; exact h2⟩
  · exact ⟨ins, by rw [Map.get_set_ne _ _ _ _ hsl]; exact h1, h2⟩

/-- In a state whose bound slots are all at most `slot`, with the entries that hold a
request in slots from 1 on, and with `slot`, the length of the queue and the slot
watermark of a `Promise` in the non-negative range of a Go `int`, no step that completes
drops a request: a request held before the step is still held, or has been posted to the
inbound channel, or has been answered. The step may overflow the slot counter: the slots
it then opens are negative. -/
theorem paxos.step_no_drop (env : Env) (p : paxos) (i : Input) (r : paxos × List Effect)
    (hk : p.KeysBelowSlot) (hr : p.RequestSlotsPositive) (h0 : 0 ≤ p.slot)
    (hmax : p.slot ≤ MaxInt64) (hlen : (p.requests.length : Int) ≤ MaxInt64)
    (hi : ∀ m, i = Input.promise m → m.PreSlot ≤ MaxInt64)
    (h : p.step env i = some r) (q : Request) (hq : p.Holds q) :
    r.1.Holds q ∨ Effect.MessageChan q ∈ r.2 ∨ ∃ rep, Effect.Reply q rep ∈ r.2 := by
  cases i with
  | request msg =>
    left
    simp only [paxos.step, paxos.handleRequest] at h
    split_ifs at h with hact
    all_goals cases h
    all_goals refine paxos.Holds_of_agree p _ q ?_ ?_ hq
    all_goals simp only [paxos.accept, (paxos.prepare_frame env _).1,
      (paxos.prepare_frame env _).2.2.2.1, paxos.NextBallot]
    all_goals first
      | (intro x hx; first | exact hx | exact List.mem_append_left _ hx)
      | (intro k ins h1 h2
         first
           | exact ⟨ins, h1, h2⟩
           | exact ⟨ins, by
               rw [Map.get_set_ne _ _ _ _
                 (by simpa using wrap64_off p.slot k 1 h0 hmax (le_refl 1) (by decide)
                       (hr k ins q h1 h2) (hk k ins h1))]
               exact h1, h2⟩)
  | prepare msg =>
    left
    simp only [paxos.step, paxos.handlePrepare] at h
    cases h
    dsimp only
    split_ifs
    all_goals exact hq
  | promise msg =>
    left
    simp only [paxos.step] at h
    by_cases hd : p.drains env msg = true
    · obtain ⟨hact, hb, hl, q0, hq0, hq1⟩ := paxos.drains_true env p msg hd
      rw [paxos.handlePromise_win env p msg q0 hact hb hl hq0 hq1] at h
      cases h
      rcases hq with hq2 | ⟨k, ins, h1, h2⟩
      · exact Or.inr (paxos.acceptAll_holds_wrap env _ _ q hlen hq2)
      · exact Or.inr ⟨k, ins, by
          dsimp only
          rw [paxos.acceptAll_get_off env _ _ k (fun j hj1 hj2 =>
            wrap64_off (max p.slot msg.PreSlot) k j (le_trans h0 (le_max_left _ _))
              (max_le hmax (hi msg rfl)) hj1 (by omega)
              (hr k ins q h1 h2) (le_trans (hk k ins h1) (le_max_left _ _)))]
          exact h1, h2⟩
    · obtain ⟨h1, h2, _, _⟩ :=
        paxos.handlePromise_not_drains env p msg r (by simpa using hd) h
      exact paxos.Holds_of_agree p _ q (fun x hx => by rw [h2]; exact hx)
        (fun k ins h3 h4 => ⟨ins, by rw [h1]; exact h3, h4⟩) hq
  | accept msg =>
    simp only [paxos.step, paxos.handleAccept] at h
    cases h
    dsimp only
    split_ifs with hb
    · rcases hq with hq1 | ⟨k, ins, h1, h2⟩
      · exact Or.inl (Or.inl hq1)
      · by_cases hsl : k = msg.Slot
        · right; left
          subst hsl
          simp [h1, h2]
        · left
          exact Or.inr ⟨k, ins, by dsimp only; rw [Map.get_set_ne _ _ _ _ hsl]; exact h1, h2⟩
    · exact Or.inl hq
  | accepted msg =>
    simp only [paxos.step, paxos.handleAccepted] at h
    split at h
    · cases h; exact Or.inl hq
    · rename_i ins0 hget
      split_ifs at h <;> (try split at h) <;> (try split_ifs at h) <;> (try split at h) <;>
        (try cases h)
      all_goals try rw [paxos.Holds_adoptBallot]
      · exact Or.inl hq
      · exact Or.inl (paxos.Holds_set p _ q msg.Slot ins0 _ hget rfl rfl rfl hq)
      · exact Or.inl (paxos.Holds_set p _ q msg.Slot ins0 _ hget rfl rfl rfl hq)
      · rename_i req hreq
        rcases hq with hq1 | ⟨k, ins, h1, h2⟩
        · exact Or.inl (Or.inl hq1)
        · by_cases hsl : k = msg.Slot
          · right; left
            subst hsl
            rw [hget] at h1
            cases h1
            rw [hreq] at h2
            cases h2
            simp
          · left
            exact Or.inr ⟨k, ins, by dsimp only; rw [Map.get_del_ne _ _ _ hsl]; exact h1, h2⟩
  | commit msg =>
    left
    simp only [paxos.step, paxos.handleCommit_eq] at h
    cases h
    refine paxos.Holds_of_agree p _ q (fun x hx => hx) ?_ hq
    intro k ins h1 h2
    simp only [(paxos.advanceCommit_frame _).1]
    by_cases hsl : k = msg.Slot
    · subst hsl
      rw [Map.get_set_same, h1]
      exact ⟨_, rfl, h2⟩
    · rw [Map.get_set_ne _ _ _ _ hsl]
      exact ⟨ins, h1, h2⟩
  | leaderChange msg =>
    left
    simp only [paxos.step, paxos.handleLeaderChange] at h
    split_ifs at h
    all_goals cases h
    · exact paxos.Holds_of_agree p _ q
        (fun x hx => by rw [(paxos.prepare_frame env _).2.2.2.1]; exact hx)
        (fun k ins h1 h2 => ⟨ins, by rw [(paxos.prepare_frame env _).1]; exact h1, h2⟩) hq
    · exact hq
  | retry =>
    left
    simp only [paxos.step, paxos.retryPrepare] at h
    cases h
    exact paxos.Holds_of_agree p _ q
      (fun x hx => by
        show x ∈ (p.prepare env).1.requests
        rw [(paxos.prepare_frame env _).2.2.2.1]; exact hx)
      (fun k ins h1 h2 => ⟨ins, by
        show Map.get (p.prepare env).1.cmds k = some ins
        rw [(paxos.prepare_frame env _).1]; exact h1, h2⟩) hq

/-! ## Activity and ballot ownership along a step -/

theorem paxos.adoptBallot_active (env : Env) (p : paxos) (b : Int)
    (hinv : p.active = true → env.LeaderID p.ballot = env.ID) :
    (p.adoptBallot b).active = true → env.LeaderID (p.adoptBallot b).ballot = env.ID := by
  unfold paxos.adoptBallot
  split
  · intro h; cases h
  · exact hinv

/-- Apart from `handleCommit` and `handleLeaderChange` run on an active replica, every
step keeps `active → LeaderID(ballot) = self`. -/
theorem paxos.step_active_own (env : Env) (p : paxos) (i : Input) (r : paxos × List Effect)
    (hinv : p.active = true → env.LeaderID p.ballot = env.ID)
    (hi : p.active = true →
      (∀ m, i ≠ Input.commit m) ∧ (∀ m, i ≠ Input.leaderChange m))
    (h : p.step env i = some r) :
    r.1.active = true → env.LeaderID r.1.ballot = env.ID := by
  cases i with
  | request msg =>
    simp only [paxos.step, paxos.handleRequest] at h
    split_ifs at h
    all_goals cases h
    all_goals simp only [paxos.accept, (paxos.prepare_frame env _).2.2.2.2,
      paxos.prepare_ballot, paxos.NextBallot]
    all_goals first
      | exact hinv
      | (intro ha; simp_all)
  | prepare msg =>
    simp only [paxos.step, paxos.handlePrepare] at h
    cases h
    dsimp only
    split_ifs
    all_goals first
      | exact hinv
      | (intro ha; cases ha)
  | promise msg =>
    simp only [paxos.step, paxos.handlePromise] at h
    split_ifs at h <;> (try split at h) <;> (try split_ifs at h) <;> (try cases h)
    all_goals try dsimp only
    all_goals first
      | exact hinv
      | (intro ha; cases ha)
      | (intro _
         rw [(paxos.acceptAll_frame env _ _).1]
         dsimp only at *
         have hb : msg.Ballot = p.ballot ∧ env.LeaderID msg.Ballot = env.ID := by assumption
         rw [← hb.1]
         exact hb.2)
  | accept msg =>
    simp only [paxos.step, paxos.handleAccept] at h
    cases h
    dsimp only
    split_ifs
    all_goals first
      | exact hinv
      | (intro ha; cases ha)
  | accepted msg =>
    simp only [paxos.step, paxos.handleAccepted] at h
    split at h
    · cases h; exact hinv
    · split_ifs at h <;> (try split at h) <;> (try split_ifs at h) <;> (try split at h) <;>
        (try cases h)
      all_goals first
        | exact hinv
        | exact paxos.adoptBallot_active env _ _ hinv
  | commit msg =>
    intro ha
    simp only [paxos.step, paxos.handleCommit_eq] at h
    cases h
    have hact : p.active = true := ha
    exact absurd rfl ((hi hact).1 msg)
  | leaderChange msg =>
    intro ha
    simp only [paxos.step, paxos.handleLeaderChange] at h
    split_ifs at h
    all_goals cases h
    · rw [(paxos.prepare_frame env _).2.2.2.2] at ha
      exact absurd rfl ((hi ha).2 msg)
    · exact absurd rfl ((hi ha).2 msg)
  | retry =>
    simp only [paxos.step, paxos.retryPrepare] at h
    cases h
    intro ha
    have ha2 : p.active = true := by
      rw [← (paxos.prepare_frame env p).2.2.2.2]; exact ha
    show env.LeaderID (p.prepare env).1.ballot = env.ID
    rw [paxos.prepare_ballot]
    simp [ha2, hinv ha2]

/-! ## Reachable states -/

theorem Reachable.of_run (env : Env) (key : Key) (p : paxos) (is : List Input)
    (r : paxos × List Effect) (hp : Reachable env key p) (h : p.run env is = some r) :
    Reachable env key r.1 := by
  induction is generalizing p r with
  | nil =>
    simp only [paxos.run, Option.some.injEq] at h
    subst h
    exact hp
  | cons i rest ih =>
    simp only [paxos.run] at h
    split at h
    · cases h
    · rename_i r1 h1
      split at h
      · cases h
      · rename_i r2 h2
        cases h
        exact ih r1.1 r2 (Reachable.step p i r1 hp h1) h2

theorem ReachableNoOverflow.reachable (env : Env) (key : Key) (p : paxos)
    (h : ReachableNoOverflow env key p) : Reachable env key p := by
  induction h with
  | init => exact Reachable.init
  | step p i r _ _ hstep ih => exact Reachable.step p i r ih hstep

/-- Short of overflow of the slot counter, every bound slot is at most `slot`,
`commit ≤ slot`, and `slot` has not fallen below its initial value. -/
theorem ReachableNoOverflow.inv (env : Env) (key : Key) (p : paxos)
    (h : ReachableNoOverflow env key p) :
    p.KeysBelowSlot ∧ p.commit ≤ p.slot ∧ 0 ≤ p.slot := by
  induction h with
  | init =>
    refine ⟨?_, le_refl _, le_refl _⟩
    intro k ins hget
    simp [NewPaxos, Map.get] at hget
  | step p i r _ hno hstep ih =>
    have hmin : MinInt64 ≤ p.slot := le_trans (by decide) ih.2.2
    obtain ⟨h1, h2, h3⟩ := paxos.step_inv env p i r ih.1 ih.2.1 hmin hno hstep
    exact ⟨h1, h2, le_trans ih.2.2 h3⟩

/-- Short of overflow of the slot counter, every entry that holds a request is in a slot
from 1 on. -/
theorem ReachableNoOverflow.reqkeys (env : Env) (key : Key) (p : paxos)
    (h : ReachableNoOverflow env key p) : p.RequestSlotsPositive := by
  induction h with
  | init =>
    intro k ins req hget
    simp [NewPaxos, Map.get] at hget
  | step p i r hp hno hstep ih =>
    exact paxos.step_reqkeys env p i r ih (ReachableNoOverflow.inv env key p hp).2.2 hno
      hstep

/-- Short of overflow of the slot counter, every slot of the prefix `1..commit` is bound
to an entry that is committed, or is uncommitted with neither request nor quorum
tracker. -/
theorem ReachableNoOverflow.prefix_settled (env : Env) (key : Key) (p : paxos)
    (h : ReachableNoOverflow env key p) :
    ∀ s, 1 ≤ s → s ≤ p.commit → ∃ ins, Map.get p.cmds s = some ins ∧
      (ins.committed = true ∨
        (ins.committed = false ∧ ins.request = none ∧ ins.quorum = none)) := by
  induction h with
  | init =>
    intro s h1 h2
    simp only [NewPaxos] at h2
    omega
  | step p i r hp hno hstep ih =>
    intro s h1 h2
    have hinv := ReachableNoOverflow.inv env key p hp
    have hmin : MinInt64 ≤ p.slot := le_trans (by decide) hinv.2.2
    by_cases hs : s ≤ p.commit
    · obtain ⟨ins, hget, hc⟩ := ih s h1 hs
      exact paxos.step_keeps_settled env p i r s ins hget hc (le_trans hs hinv.2.1) hmin hno
        hstep
    · obtain ⟨ins, hget, hc⟩ := paxos.step_new_prefix env p i r hstep s (by omega) h2
      exact ⟨ins, hget, Or.inl hc⟩

theorem specNextBallot_gt (b : Int) (id : ID) : b < specNextBallot b id := by
  unfold specNextBallot
  have h1 : b % 65536 < 65536 := Int.emod_lt_of_pos b (by norm_num)
  have h2 : (0 : Int) ≤ (id : Int) := Int.ofNat_nonneg id
  split <;> omega

/-- Closed form of the last branch of `handleRequest`: the ballot is advanced by the call
of `NextBallot` in `handleRequest` and again by the one in `prepare`. -/
theorem paxos.handleRequest_prepare (env : Env) (p : paxos) (msg : Request)
    (hactive : p.active = false) (hleader : env.LeaderID p.ballot ≠ env.ID)
    (hcond : env.Threshold = 0 ∨ p.ballot = 0) :
    p.handleRequest env msg =
      some ({ p with
                requests := p.requests ++ [msg],
                ballot := env.NextBallot (env.NextBallot p.ballot env.ID) env.ID,
                quorum := some [env.ID] },
            [Effect.Broadcast (Msg.prepare
              { Key := p.key,
                Ballot := env.NextBallot (env.NextBallot p.ballot env.ID) env.ID })]) := by
  have h3 : ¬ (env.Threshold > 0 ∧ p.ballot ≠ 0) := by
    rintro ⟨h1, h2⟩
    rcases hcond with h | h
    · omega
    · exact h2 h
  unfold paxos.handleRequest
  simp only [hactive, hleader, h3, if_false, Bool.false_eq_true]
  simp [paxos.prepare, paxos.NextBallot, hactive, NewQuorum, Quorum.ACK]

/-! ## Opening slots and draining the queue -/

/-- Closed form of `handleRequest` on an active replica. -/
theorem paxos.handleRequest_active (env : Env) (p : paxos) (req : Request)
    (hactive : p.active = true) :
    p.handleRequest env req =
      some ({ p with
                slot := wrap64 (p.slot + 1),
                cmds := Map.set p.cmds (wrap64 (p.slot + 1))
                  { ballot := p.ballot, commands := [req.Command], committed := false,
                    request := some req, quorum := some [env.ID] },
                stat := p.stat ++ [env.NewID (env.Site req.ClientID) 1] },
            Effect.Multicast (env.Site env.ID)
              (Msg.accept { Key := p.key, Ballot := p.ballot, Slot := wrap64 (p.slot + 1),
                            Commands := [req.Command] }) ::
            (if env.Threshold > 0 ∧
                env.hit (p.stat ++ [env.NewID (env.Site req.ClientID) 1]) ≠ 0 ∧
                env.Site (env.hit (p.stat ++ [env.NewID (env.Site req.ClientID) 1])) ≠
                  env.Site env.ID
             then [Effect.Send (env.hit (p.stat ++ [env.NewID (env.Site req.ClientID) 1]))
                    (Msg.leaderChange
                      { Key := p.key,
                        To := env.hit (p.stat ++ [env.NewID (env.Site req.ClientID) 1]),
                        From := env.ID, Ballot := p.ballot })]
             else [])) := by
  simp only [paxos.handleRequest, hactive, if_true, paxos.accept]
  split_ifs
  · simp [NewQuorum, Quorum.ACK, hactive]
  · simp [NewQuorum, Quorum.ACK, hactive]

/-- What the draining loop leaves behind short of overflow: request number `i` (from 0)
of the list is in slot `slot + i + 1`, and effect number `i` is the `Multicast` of its
`Accept`. -/
theorem paxos.acceptAll_new (env : Env) (p : paxos) (rs : List Request)
    (hmin : MinInt64 ≤ p.slot) (hno : p.slot + rs.length ≤ MaxInt64) :
    (paxos.acceptAll env p rs).2.length = rs.length ∧
    ∀ (i : Nat) (r : Request), rs[i]? = some r →
      Map.get (paxos.acceptAll env p rs).1.cmds (p.slot + i + 1) = some
        { ballot := p.ballot, commands := [r.Command], committed := false,
          request := some r, quorum := some [env.ID] } ∧
      (paxos.acceptAll env p rs).2[i]? = some (Effect.Multicast (env.Site env.ID)
        (Msg.accept { Key := p.key, Ballot := p.ballot, Slot := p.slot + i + 1,
                      Commands := [r.Command] })) := by
  induction rs generalizing p with
  | nil =>
    refine ⟨rfl, ?_⟩
    intro i r h
    simp at h
  | cons r0 rest ih =>
    simp only [List.length_cons, Nat.cast_add, Nat.cast_one] at hno
    have hw : wrap64 (p.slot + 1) = p.slot + 1 := wrap64_succ _ hmin (by omega)
    have hslot : (p.accept env r0).1.slot = p.slot + 1 :=
      paxos.accept_slot env p r0 hmin (by omega)
    obtain ⟨ih1, ih2⟩ := ih (p.accept env r0).1 (by rw [hslot]; omega) (by rw [hslot]; omega)
    refine ⟨?_, ?_⟩
    · simp only [paxos.acceptAll, List.length_append, ih1, List.length_cons]
      simp [paxos.accept]
      omega
    · intro i r h
      cases i with
      | zero =>
        simp only [List.getElem?_cons_zero, Option.some.injEq] at h
        subst h
        constructor
        · simp only [paxos.acceptAll]
          rw [paxos.acceptAll_get_le env _ rest _ (by rw [hslot]; omega)
            (by rw [hslot]; omega) (by rw [hslot]; simp)]
          simp only [paxos.accept, Nat.cast_zero, add_zero, hw]
          rw [Map.get_set_same]
          rfl
        · simp [paxos.acceptAll, paxos.accept, hw]
      | succ j =>
        simp only [List.getElem?_cons_succ] at h
        obtain ⟨h1, h2⟩ := ih2 j r h
        have hs : p.slot + ((j + 1 : Nat) : Int) + 1 = (p.accept env r0).1.slot + j + 1 := by
          rw [hslot]; push_cast; ring
        constructor
        · simp only [paxos.acceptAll]
          rw [hs]
          exact h1
        · simp only [paxos.acceptAll]
          rw [hs]
          have hlen : (p.accept env r0).2.length = 1 := rfl
          rw [List.getElem?_append_right (by rw [hlen]; omega), hlen]
          simpa using h2

theorem specNextBallot_own (b : Int) : specLeaderID (specNextBallot b 257) = 257 := by
  unfold specLeaderID specNextBallot
  split
  · push_cast
    have h : (b - b % 65536 + 257) % 65536 = 257 := by omega
    rw [h]
    rfl
  · push_cast
    have h : (b - b % 65536 + 65536 + 257) % 65536 = 257 := by omega
    rw [h]
    rfl

/-! ## The router -/

theorem Replica.call_some (r : Replica) (key : Key) (handle : paxos → Result)
    (res : Replica × List Effect) (h : r.call key handle = some res) :
    ∃ p out, Map.get r.paxi key = some p ∧ handle p = some out ∧
      res.1.paxi = Map.set r.paxi key out.1 ∧ res.2 = out.2 := by
  unfold Replica.call at h
  split at h
  · cases h
  · rename_i p hp
    split at h
    · cases h
    · rename_i out hout
      cases h
      exact ⟨p, out, hp, hout, rfl, rfl⟩

theorem Replica.call_none (r : Replica) (key : Key) (handle : paxos → Result)
    (h : Map.get r.paxi key = none) : r.call key handle = none := by
  simp only [Replica.call, h]

theorem Replica.init_of_bound (r : Replica) (key : Key) (p : paxos)
    (h : Map.get r.paxi key = some p) : r.init key = r := by
  simp only [Replica.init, h]

theorem Replica.init_get_same (r : Replica) (key : Key) :
    Map.get (r.init key).paxi key = some ((Map.get r.paxi key).getD (NewPaxos key)) := by
  unfold Replica.init
  split
  · rename_i p hp
    rw [hp]; rfl
  · rename_i hp
    rw [hp]
    exact Map.get_set_same _ _ _

theorem Replica.init_get_ne (r : Replica) (key k : Key) (hk : k ≠ key) :
    Map.get (r.init key).paxi k = Map.get r.paxi k := by
  unfold Replica.init
  split
  · rfl
  · exact Map.get_set_ne _ _ _ _ hk

theorem paxos.handleRequest_some (env : Env) (p : paxos) (msg : Request) :
    ∃ out, p.handleRequest env msg = some out := by
  unfold paxos.handleRequest
  dsimp only
  split_ifs
  all_goals exact ⟨_, rfl⟩

/-- A dispatch that completes has run the per-key handler of the message on the instance
bound to its key (after `init`, for the kinds that call it) and rebound the key to the
result. -/
theorem Replica.messageLoop_some (env : Env) (r : Replica) (msg : Message)
    (res : Replica × List Effect) (h : r.messageLoop env msg = some res) :
    ∃ r1 p out, (r1 = r ∨ r1 = r.init msg.key) ∧ Map.get r1.paxi msg.key = some p ∧
      p.step env msg.input = some out ∧
      res.1.paxi = Map.set r1.paxi msg.key out.1 ∧ res.2 = out.2 := by
  cases msg with
  | request m =>
    simp only [Replica.messageLoop, Replica.handleRequest] at h
    obtain ⟨p, out, h1, h2, h3, h4⟩ := Replica.call_some _ _ _ res h
    exact ⟨_, p, out, Or.inr rfl, h1, h2, h3, h4⟩
  | prepare m =>
    simp only [Replica.messageLoop, Replica.handlePrepare] at h
    obtain ⟨p, out, h1, h2, h3, h4⟩ := Replica.call_some _ _ _ res h
    exact ⟨_, p, out, Or.inr rfl, h1, h2, h3, h4⟩
  | promise m =>
    simp only [Replica.messageLoop, Replica.handlePromise] at h
    obtain ⟨p, out, h1, h2, h3, h4⟩ := Replica.call_some _ _ _ res h
    exact ⟨_, p, out, Or.inl rfl, h1, h2, h3, h4⟩
  | accept m =>
    simp only [Replica.messageLoop, Replica.handleAccept] at h
    obtain ⟨p, out, h1, h2, h3, h4⟩ := Replica.call_some _ _ _ res h
    exact ⟨_, p, out, Or.inr rfl, h1, h2, h3, h4⟩
  | accepted m =>
    simp only [Replica.messageLoop, Replica.handleAccepted] at h
    obtain ⟨p, out, h1, h2, h3, h4⟩ := Replica.call_some _ _ _ res h
    exact ⟨_, p, out, Or.inl rfl, h1, h2, h3, h4⟩
  | commit m =>
    simp only [Replica.messageLoop, Replica.handleCommit] at h
    obtain ⟨p, out, h1, h2, h3, h4⟩ := Replica.call_some _ _ _ res h
    exact ⟨_, p, out, Or.inr rfl, h1, h2, h3, h4⟩
  | leaderChange m =>
    simp only [Replica.messageLoop, Replica.handleLeaderChange] at h
    obtain ⟨p, out, h1, h2, h3, h4⟩ := Replica.call_some _ _ _ res h
    exact ⟨_, p, out, Or.inl rfl, h1, h2, h3, h4⟩

/-- The four kinds of message whose router method calls `init` and whose per-key handler
never panics are dispatched to completion on the instance of the key, created as
`NewPaxos` if it was missing. -/
theorem Replica.messageLoop_creates (env : Env) (r : Replica) (msg : Message)
    (hkind : (∃ m, msg = Message.request m) ∨ (∃ m, msg = Message.prepare m) ∨
      (∃ m, msg = Message.accept m) ∨ (∃ m, msg = Message.commit m)) :
    ∃ out, ((Map.get r.paxi msg.key).getD (NewPaxos msg.key)).step env msg.input = some out ∧
      r.messageLoop env msg =
        some ({ paxi := Map.set (r.init msg.key).paxi msg.key out.1 }, out.2) := by
  rcases hkind with ⟨m, rfl⟩ | ⟨m, rfl⟩ | ⟨m, rfl⟩ | ⟨m, rfl⟩
  · simp only [Replica.messageLoop, Replica.handleRequest, Replica.call, Message.key,
      Message.input, paxos.step, Replica.init_get_same]
    obtain ⟨out, hout⟩ := paxos.handleRequest_some env
      ((Map.get r.paxi m.Command.Key).getD (NewPaxos m.Command.Key)) m
    rw [hout]
    exact ⟨out, rfl, rfl⟩
  · simp only [Replica.messageLoop, Replica.handlePrepare, Replica.call, Message.key,
      Message.input, paxos.step, Replica.init_get_same]
    exact ⟨_, rfl, rfl⟩
  · simp only [Replica.messageLoop, Replica.handleAccept, Replica.call, Message.key,
      Message.input, paxos.step, Replica.init_get_same]
    exact ⟨_, rfl, rfl⟩
  · simp only [Replica.messageLoop, Replica.handleCommit, Replica.call, Message.key,
      Message.input, paxos.step, Replica.init_get_same]
    exact ⟨_, rfl, rfl⟩

/-- A `Promise`, `Accepted` or `LeaderChange` for a key without instance makes the router
dereference a nil `*paxos`. -/
theorem Replica.messageLoop_unknown_key (env : Env) (r : Replica) (msg : Message)
    (hkind : (∃ m, msg = Message.promise m) ∨ (∃ m, msg = Message.accepted m) ∨
      (∃ m, msg = Message.leaderChange m))
    (hkey : Map.get r.paxi msg.key = none) : r.messageLoop env msg = none := by
  rcases hkind with ⟨m, rfl⟩ | ⟨m, rfl⟩ | ⟨m, rfl⟩
  · exact Replica.call_none _ _ _ hkey
  · exact Replica.call_none _ _ _ hkey
  · exact Replica.call_none _ _ _ hkey

/-- An `Accepted` at or above the ballot of an uncommitted instance that has neither
request nor quorum tracker, as `handleAccept` and `handleCommit` record them, makes
`handleAccepted` dereference a nil pointer. -/
theorem paxos.handleAccepted_bare (env : Env) (p : paxos) (m : Accepted) (ins : Instance)
    (hget : Map.get p.cmds m.Slot = some ins) (hc : ins.committed = false)
    (hb : m.Ballot ≥ ins.ballot) (hreq : ins.request = none) (hq : ins.quorum = none) :
    p.handleAccepted env m = none := by
  have h1 : ¬ (ins.committed = true ∨ m.Ballot < ins.ballot) := by
    rw [hc]; simp; omega
  simp only [paxos.handleAccepted, hget, h1, if_false, hq, hreq]
  split_ifs <;> rfl

/-! ## The client -/

/-- The goroutines started from counter `i` bring the counter at most to `N/2`. -/
theorem Client.quorumLoop_length (N : Int) (i : Int) (l : List (NodeID × String)) :
    ((Client.quorumLoop N i l).1.length : Int) + i ≤ max i (Int.tdiv N 2) := by
  induction l generalizing i with
  | nil => simp [Client.quorumLoop]
  | cons b rest ih =>
    simp only [Client.quorumLoop]
    split_ifs with h
    · simp
    · have h1 := ih (i + 1)
      have h2 : max (i + 1) (Int.tdiv N 2) = Int.tdiv N 2 := max_eq_right (by omega)
      rw [h2] at h1
      simp only [List.length_cons]
      push_cast
      have h3 := le_max_right i (Int.tdiv N 2)
      omega

/-- The counter on exit has counted every goroutine started. -/
theorem Client.quorumLoop_counter (N : Int) (i : Int) (l : List (NodeID × String)) :
    i + ((Client.quorumLoop N i l).1.length : Int) ≤ (Client.quorumLoop N i l).2 := by
  induction l generalizing i with
  | nil => simp [Client.quorumLoop]
  | cons b rest ih =>
    simp only [Client.quorumLoop]
    split_ifs with h
    · simp
    · have h1 := ih (i + 1)
      simp only [List.length_cons]
      push_cast
      omega

/-- Neither quorum operation reaches more than `N/2` nodes, whatever the client. -/
theorem Client.quorum_at_most_half (c : Client) (key : Key) (value : Option Value) :
    ((c.QuorumPut key value).2.length : Int) ≤ max 0 (Int.tdiv c.N 2) ∧
    ((c.QuorumGet key).calls.length : Int) ≤ max 0 (Int.tdiv c.N 2) := by
  have h := Client.quorumLoop_length c.N 0 c.http
  simp only [add_zero] at h
  constructor
  · simpa [Client.QuorumPut] using h
  · simpa [Client.QuorumGet] using h

/-- The receiving loop of `QuorumGet` waits for more values than goroutines were started:
the call never returns. -/
theorem Client.QuorumGet_blocks (c : Client) (key : Key) :
    (c.QuorumGet key).returns = false := by
  have h := Client.quorumLoop_counter c.N 0 c.http
  simp only [QuorumGetRun.returns, Client.QuorumGet, List.length_map, decide_eq_false_iff_not,
    not_le]
  omega

theorem mem_setPut (s : List Value) (v x : Value) : x ∈ setPut s v ↔ x ∈ s ∨ x = v := by
  unfold setPut
  split_ifs with h
  · constructor
    · exact Or.inl
    · rintro (h1 | h1)
      · exact h1
      · rw [h1]; exact h
  · simp

theorem nodup_setPut (s : List Value) (v : Value) (hs : s.Nodup) : (setPut s v).Nodup := by
  unfold setPut
  split_ifs with h
  · exact hs
  · rw [List.nodup_append]
    refine ⟨hs, List.nodup_singleton v, ?_⟩
    intro a ha hb
    simp only [List.mem_singleton] at hb
    subst hb
    exact h ha

/-- The step of the loop that builds the set for index `i`. -/
theorem Client.column_step (h : List (NodeID × List Value)) (i : Nat) (s : List Value)
    (b : NodeID × String) :
    (match Map.get h b.1 with
      | some l =>
        match l[i]? with
        | some v => setPut s v
        | none => s
      | none => s) =
    match (Map.get h b.1).bind (fun l => l[i]?) with
    | some v => setPut s v
    | none => s := by
  cases Map.get h b.1 with
  | none => rfl
  | some l => rfl

theorem foldl_setPut_mem {β : Type} (opt : β → Option Value) (l : List β) (s : List Value)
    (x : Value) :
    x ∈ l.foldl (fun s b => match opt b with | some v => setPut s v | none => s) s ↔
      x ∈ s ∨ ∃ b, b ∈ l ∧ opt b = some x := by
  induction l generalizing s with
  | nil => simp
  | cons b rest ih =>
    simp only [List.foldl_cons, ih, List.mem_cons]
    cases hb : opt b with
    | none =>
      simp only
      constructor
      · rintro (h1 | ⟨b2, h2, h3⟩)
        · exact Or.inl h1
        · exact Or.inr ⟨b2, Or.inr h2, h3⟩
      · rintro (h1 | ⟨b2, h2 | h2, h3⟩)
        · exact Or.inl h1
        · rw [h2, hb] at h3; cases h3
        · exact Or.inr ⟨b2, h2, h3⟩
    | some v =>
      simp only [mem_setPut]
      constructor
      · rintro ((h1 | h1) | ⟨b2, h2, h3⟩)
        · exact Or.inl h1
        · exact Or.inr ⟨b, Or.inl rfl, by rw [hb, h1]⟩
        · exact Or.inr ⟨b2, Or.inr h2, h3⟩
      · rintro (h1 | ⟨b2, h2 | h2, h3⟩)
        · exact Or.inl (Or.inl h1)
        · rw [h2, hb] at h3
          cases h3
          exact Or.inl (Or.inr rfl)
        · exact Or.inr ⟨b2, h2, h3⟩

theorem foldl_setPut_nodup {β : Type} (opt : β → Option Value) (l : List β) (s : List Value)
    (hs : s.Nodup) :
    (l.foldl (fun s b => match opt b with | some v => setPut s v | none => s) s).Nodup := by
  induction l generalizing s with
  | nil => exact hs
  | cons b rest ih =>
    simp only [List.foldl_cons]
    apply ih
    cases opt b with
    | none => exact hs
    | some v => exact nodup_setPut s v hs

theorem Client.column_eq (c : Client) (h : List (NodeID × List Value)) (i : Nat) :
    c.column h i =
      c.http.foldl
        (fun s b =>
          match (fun b : NodeID × String => (Map.get h b.1).bind (fun l => l[i]?)) b with
          | some v => setPut s v
          | none => s) [] := by
  unfold Client.column
  congr 1
  funext s b
  exact Client.column_step h i s b

/-- The set built for index `i` holds the values that the nodes have at position `i`. -/
theorem Client.mem_column (c : Client) (h : List (NodeID × List Value)) (i : Nat)
    (x : Value) :
    x ∈ c.column h i ↔
      ∃ b l, b ∈ c.http ∧ Map.get h b.1 = some l ∧ l[i]? = some x := by
  rw [Client.column_eq, foldl_setPut_mem]
  constructor
  · rintro (h1 | ⟨b, h2, h3⟩)
    · simp at h1
    · cases hg : Map.get h b.1 with
      | none => simp [hg] at h3
      | some l =>
        simp only [hg, Option.some_bind] at h3
        exact ⟨b, l, h2, hg, h3⟩
  · rintro ⟨b, l, h2, hg, h3⟩
    exact Or.inr ⟨b, h2, by simp only [hg, Option.some_bind]; exact h3⟩

theorem Client.nodup_column (c : Client) (h : List (NodeID × List Value)) (i : Nat) :
    (c.column h i).Nodup := by
  rw [Client.column_eq]
  exact foldl_setPut_nodup _ _ _ List.nodup_nil

/-- A set has more than one member exactly when it has two different members. -/
theorem one_lt_length_iff (s : List Value) (hs : s.Nodup) :
    1 < s.length ↔ ∃ x y, x ∈ s ∧ y ∈ s ∧ x ≠ y := by
  constructor
  · intro h
    match s, hs, h with
    | a :: b :: rest, hs, _ =>
      refine ⟨a, b, by simp, by simp, ?_⟩
      intro hab
      simp [hab] at hs
  · rintro ⟨x, y, hx, hy, hxy⟩
    match s, hx, hy with
    | [a], hx, hy =>
      simp only [List.mem_singleton] at hx hy
      exact absurd (hx.trans hy.symm) hxy
    | a :: b :: rest, _, _ => simp

/-- The index loop returns `false` exactly when one of its sets has more than one
member. -/
theorem Client.consensusLoop_false (c : Client) (h : List (NodeID × List Value))
    (todo i : Nat) :
    Client.consensusLoop c h todo i = false ↔
      ∃ j, i ≤ j ∧ j < i + todo ∧ 1 < (c.column h j).length := by
  induction todo generalizing i with
  | zero =>
    simp only [Client.consensusLoop, add_zero]
    constructor
    · intro h1; cases h1
    · rintro ⟨j, h1, h2, _⟩; omega
  | succ n ih =>
    simp only [Client.consensusLoop]
    split_ifs with hc
    · simp only [true_iff]
      exact ⟨i, le_refl i, by omega, hc⟩
    · rw [ih (i + 1)]
      constructor
      · rintro ⟨j, h1, h2, h3⟩
        exact ⟨j, by omega, by omega, h3⟩
      · rintro ⟨j, h1, h2, h3⟩
        have hne : j ≠ i := by
          intro hji
          rw [hji] at h3
          exact hc h3
        exact ⟨j, by omega, by omega, h3⟩

theorem Map.mem_of_get {κ ν : Type} [DecidableEq κ] (m : List (κ × ν)) (k : κ) (v : ν)
    (h : Map.get m k = some v) : (k, v) ∈ m := by
  induction m with
  | nil => simp [Map.get] at h
  | cons e rest ih =>
    obtain ⟨k1, v1⟩ := e
    by_cases h1 : k1 = k
    · simp only [Map.get, h1, if_true, Option.some.injEq] at h
      simp [h1, h]
    · simp only [Map.get, h1, if_false] at h
      simp [ih h]

theorem Client.maxLen_foldl (h : List (NodeID × List Value)) (n : Nat) :
    n ≤ h.foldl (fun n b => if b.2.length > n then b.2.length else n) n ∧
    ∀ b, b ∈ h → b.2.length ≤ h.foldl (fun n b => if b.2.length > n then b.2.length else n) n := by
  induction h generalizing n with
  | nil => simp
  | cons e rest ih =>
    simp only [List.foldl_cons, List.mem_cons]
    obtain ⟨h1, h2⟩ := ih (if e.2.length > n then e.2.length else n)
    constructor
    · refine le_trans ?_ h1
      split_ifs <;> omega
    · rintro b (hb | hb)
      · rw [hb]
        refine le_trans ?_ h1
        split_ifs <;> omega
      · exact h2 b hb

/-- Every collected history is at most `maxLen` long. -/
theorem Client.length_le_maxLen (h : List (NodeID × List Value)) (k : NodeID)
    (l : List Value) (hget : Map.get h k = some l) : l.length ≤ Client.maxLen h :=
  (Client.maxLen_foldl h 0).2 (k, l) (Map.mem_of_get h k l hget)

theorem Client.histories_foldl_other (fetch : String → Option (List Value))
    (l : List (NodeID × String)) (acc : List (NodeID × List Value)) (k : NodeID)
    (hk : ∀ b, b ∈ l → b.1 ≠ k) :
    Map.get (l.foldl (fun h b => Map.set h b.1 ((fetch b.2).getD [])) acc) k =
      Map.get acc k := by
  induction l generalizing acc with
  | nil => rfl
  | cons e rest ih =>
    simp only [List.foldl_cons]
    rw [ih _ (fun b hb => hk b (List.mem_cons_of_mem _ hb))]
    exact Map.get_set_ne _ _ _ _ (fun h2 => hk e (List.mem_cons_self _ _) h2.symm)

theorem Client.histories_foldl_get (fetch : String → Option (List Value))
    (l : List (NodeID × String)) (acc : List (NodeID × List Value))
    (hnodup : (l.map Prod.fst).Nodup) (b : NodeID × String) (hb : b ∈ l) :
    Map.get (l.foldl (fun h b => Map.set h b.1 ((fetch b.2).getD [])) acc) b.1 =
      some (nodeHistory fetch b) := by
  induction l generalizing acc with
  | nil => simp at hb
  | cons e rest ih =>
    simp only [List.map_cons, List.nodup_cons, List.mem_map, not_exists, not_and] at hnodup
    simp only [List.foldl_cons]
    rcases List.mem_cons.mp hb with h1 | h1
    · subst h1
      rw [Client.histories_foldl_other fetch rest _ b.1
        (fun b2 hb2 h2 => hnodup.1 b2 hb2 h2)]
      exact Map.get_set_same _ _ _
    · exact ih _ hnodup.2 h1

/-- With distinct node ids, the collected history of a node is the one decoded from its
url, or the empty one. -/
theorem Client.histories_get (c : Client) (fetch : String → Option (List Value))
    (hnodup : (c.http.map Prod.fst).Nodup) (b : NodeID × String) (hb : b ∈ c.http) :
    Map.get (c.histories fetch) b.1 = some (nodeHistory fetch b) :=
  Client.histories_foldl_get fetch c.http [] hnodup b hb

/-- What `Consensus` decides, for a client whose node ids are distinct. -/
theorem Client.Consensus_false_iff (c : Client) (fetch : String → Option (List Value))
    (hnodup : (c.http.map Prod.fst).Nodup) :
    c.Consensus fetch = false ↔
      ∃ (i : Nat) (b1 b2 : NodeID × String) (v1 v2 : Value), b1 ∈ c.http ∧ b2 ∈ c.http ∧
        (nodeHistory fetch b1)[i]? = some v1 ∧ (nodeHistory fetch b2)[i]? = some v2 ∧
        v1 ≠ v2 := by
  unfold Client.Consensus
  simp only
  rw [Client.consensusLoop_false]
  constructor
  · rintro ⟨j, _, _, hlen⟩
    obtain ⟨x, y, hx, hy, hxy⟩ := (one_lt_length_iff _ (Client.nodup_column c _ j)).mp hlen
    obtain ⟨b1, l1, hb1, hg1, hv1⟩ := (Client.mem_column c _ j x).mp hx
    obtain ⟨b2, l2, hb2, hg2, hv2⟩ := (Client.mem_column c _ j y).mp hy
    rw [Client.histories_get c fetch hnodup b1 hb1] at hg1
    rw [Client.histories_get c fetch hnodup b2 hb2] at hg2
    cases hg1
    cases hg2
    exact ⟨j, b1, b2, x, y, hb1, hb2, hv1, hv2, hxy⟩
  · rintro ⟨i, b1, b2, v1, v2, hb1, hb2, hv1, hv2, hne⟩
    have hg1 := Client.histories_get c fetch hnodup b1 hb1
    have hg2 := Client.histories_get c fetch hnodup b2 hb2
    refine ⟨i, Nat.zero_le i, ?_, ?_⟩
    · have hlen := Client.length_le_maxLen _ _ _ hg1
      have hi : i < (nodeHistory fetch b1).length := by
        by_contra hcon
        rw [List.getElem?_eq_none (not_lt.mp hcon)] at hv1
        cases hv1
      omega
    · exact (one_lt_length_iff _ (Client.nodup_column c _ i)).mpr
        ⟨v1, v2, (Client.mem_column c _ i v1).mpr ⟨b1, _, hb1, hg1, hv1⟩,
          (Client.mem_column c _ i v2).mpr ⟨b2, _, hb2, hg2, hv2⟩, hne⟩

/-- Histories that are prefixes of one another agree wherever both are defined. -/
theorem histories_agree_at (l1 l2 : List Value) (i : Nat) (v1 v2 : Value)
    (h : l1 <+: l2 ∨ l2 <+: l1) (h1 : l1[i]? = some v1) (h2 : l2[i]? = some v2) :
    v1 = v2 := by
  have hi1 : i < l1.length := by
    by_contra hcon
    rw [List.getElem?_eq_none (not_lt.mp hcon)] at h1
    cases h1
  have hi2 : i < l2.length := by
    by_contra hcon
    rw [List.getElem?_eq_none (not_lt.mp hcon)] at h2
    cases h2
  rcases h with ⟨t, ht⟩ | ⟨t, ht⟩
  · rw [← ht, List.getElem?_append_left hi1, h1] at h2
    exact Option.some.inj h2
  · rw [← ht, List.getElem?_append_left hi2, h2] at h1
    exact (Option.some.inj h1).symm

/-! ## The overflow test -/

theorem wrap64_range (x : Int) : MinInt64 ≤ wrap64 x ∧ wrap64 x ≤ MaxInt64 := by
  unfold wrap64 MinInt64 MaxInt64
  omega

/-- The slot counter after the draining loop, overflow included. -/
theorem paxos.acceptAll_slot_wrap (env : Env) (p : paxos) (rs : List Request)
    (hmin : MinInt64 ≤ p.slot) (hmax : p.slot ≤ MaxInt64) :
    (paxos.acceptAll env p rs).1.slot = wrap64 (p.slot + rs.length) := by
  induction rs generalizing p with
  | nil => simp [paxos.acceptAll, wrap64_eq _ hmin hmax]
  | cons r rest ih =>
    have hs : (p.accept env r).1.slot = wrap64 (p.slot + 1) := rfl
    simp only [paxos.acceptAll]
    rw [ih (p.accept env r).1 (by rw [hs]; exact (wrap64_range _).1)
      (by rw [hs]; exact (wrap64_range _).2), hs, wrap64_add]
    congr 1
    simp only [List.length_cons, Nat.cast_add, Nat.cast_one]
    ring

/-- A step that does not overflow the slot counter does not lower `slot`. -/
theorem paxos.step_slot_le (env : Env) (p : paxos) (i : Input) (r : paxos × List Effect)
    (hmin : MinInt64 ≤ p.slot) (hno : p.overflows env i = false)
    (h : p.step env i = some r) : p.slot ≤ r.1.slot := by
  cases i with
  | request msg =>
    simp only [paxos.step, paxos.handleRequest] at h
    split_ifs at h with hact
    all_goals cases h
    all_goals simp only [paxos.accept, (paxos.prepare_frame env _).2.1, paxos.NextBallot]
    · rw [wrap64_succ _ hmin (paxos.overflows_request env p msg hact hno)]
      omega
    · rw [wrap64_succ _ hmin (paxos.overflows_request env p msg hact hno)]
      omega
    · exact le_refl _
    · exact le_refl _
    · exact le_refl _
  | prepare msg =>
    simp only [paxos.step, paxos.handlePrepare] at h
    cases h
    dsimp only
    split_ifs
    all_goals exact le_refl _
  | promise msg =>
    simp only [paxos.step] at h
    by_cases hd : p.drains env msg = true
    · obtain ⟨hact, hb, hl, q, hq, hq1⟩ := paxos.drains_true env p msg hd
      have hbound := paxos.overflows_promise env p msg hd hno
      rw [paxos.handlePromise_win env p msg q hact hb hl hq hq1] at h
      cases h
      dsimp only
      rw [paxos.acceptAll_slot env _ _ (le_trans hmin (le_max_left _ _)) hbound]
      have := le_max_left p.slot msg.PreSlot
      dsimp only
      omega
    · exact (paxos.handlePromise_not_drains env p msg r (by simpa using hd) h).2.2.2
  | accept msg =>
    simp only [paxos.step, paxos.handleAccept] at h
    cases h
    dsimp only
    split_ifs
    · exact Max_ge_left _ _
    · exact le_refl _
  | accepted msg =>
    simp only [paxos.step, paxos.handleAccepted] at h
    split at h
    · cases h; exact le_refl _
    · split_ifs at h <;> (try split at h) <;> (try split_ifs at h) <;> (try split at h) <;>
        (try cases h)
      all_goals simp only [(paxos.adoptBallot_frame _ _).2.1,
        (paxos.advanceCommit_frame _).2.1]
      all_goals exact le_refl _
  | commit msg =>
    simp only [paxos.step, paxos.handleCommit_eq] at h
    cases h
    simp only [(paxos.advanceCommit_frame _).2.1]
    exact le_max_left _ _
  | leaderChange msg =>
    simp only [paxos.step, paxos.handleLeaderChange] at h
    split_ifs at h
    all_goals cases h
    all_goals simp only [(paxos.prepare_frame env _).2.1]
    all_goals exact le_refl _
  | retry =>
    simp only [paxos.step, paxos.retryPrepare] at h
    cases h
    simp only [(paxos.prepare_frame env _).2.1]
    exact le_refl _

/-- What `overflows` tests. From a state with `0 ≤ slot`, where `slot`, the length of the
queue and the slot watermark of a `Promise` are at most `MaxInt64` as Go `int`s are, a
step that completes overflows the slot counter exactly when it leaves `slot` negative. -/
theorem paxos.overflows_iff (env : Env) (p : paxos) (i : Input) (r : paxos × List Effect)
    (h0 : 0 ≤ p.slot) (hmax : p.slot ≤ MaxInt64)
    (hlen : (p.requests.length : Int) ≤ MaxInt64)
    (hi : ∀ m, i = Input.promise m → m.PreSlot ≤ MaxInt64)
    (h : p.step env i = some r) :
    p.overflows env i = true ↔ r.1.slot < 0 := by
  have hmin : MinInt64 ≤ p.slot := le_trans (by decide) h0
  constructor
  · intro hov
    cases i with
    | request msg =>
      simp only [paxos.overflows, Bool.and_eq_true, decide_eq_true_eq] at hov
      simp only [paxos.step, paxos.handleRequest_active env p msg hov.1,
        Option.some.injEq] at h
      subst h
      have h1 := hov.2
      unfold MaxInt64 at h1 hmax
      show wrap64 (p.slot + 1) < 0
      unfold wrap64
      omega
    | promise msg =>
      simp only [paxos.overflows, Bool.and_eq_true, decide_eq_true_eq] at hov
      obtain ⟨hact, hb, hl, q, hq, hq1⟩ := paxos.drains_true env p msg hov.1
      simp only [paxos.step, paxos.handlePromise_win env p msg q hact hb hl hq hq1,
        Option.some.injEq] at h
      subst h
      have h1 := hov.2
      have h2 : max p.slot msg.PreSlot ≤ MaxInt64 := max_le hmax (hi msg rfl)
      have h3 : 0 ≤ max p.slot msg.PreSlot := le_trans h0 (le_max_left _ _)
      show (paxos.acceptAll env _ p.requests).1.slot < 0
      rw [paxos.acceptAll_slot_wrap env _ _ (le_trans (by decide) h3) h2]
      dsimp only
      unfold MaxInt64 at h1 h2 hlen
      unfold wrap64
      omega
    | prepare msg => simp [paxos.overflows] at hov
    | accept msg => simp [paxos.overflows] at hov
    | accepted msg => simp [paxos.overflows] at hov
    | commit msg => simp [paxos.overflows] at hov
    | leaderChange msg => simp [paxos.overflows] at hov
    | retry => simp [paxos.overflows] at hov
  · intro hneg
    by_contra hov
    have hno : p.overflows env i = false := by simpa using hov
    have := paxos.step_slot_le env p i r hmin hno h
    omega

/-! ## Runs without overflow -/

theorem ReachableNoOverflow.of_checked_run (env : Env) (key : Key) (p : paxos) (is : List Input)
    (r : paxos × List Effect) (hp : ReachableNoOverflow env key p)
    (hno : p.runOverflows env is = false) (h : p.run env is = some r) :
    ReachableNoOverflow env key r.1 := by
  induction is generalizing p r with
  | nil =>
    simp only [paxos.run, Option.some.injEq] at h
    subst h
    exact hp
  | cons i rest ih =>
    simp only [paxos.run] at h
    simp only [paxos.runOverflows, Bool.or_eq_false_iff] at hno
    split at h
    · cases h
    · rename_i r1 h1
      rw [h1] at hno
      split at h
      · cases h
      · rename_i r2 h2
        cases h
        exact ih r1.1 r2 (ReachableNoOverflow.step p i r1 hp hno.1 h1) hno.2 h2

/-- A request that the state holds occurs in the queue or in a binding of `cmds`. -/
theorem paxos.Holds_mem (p : paxos) (q : Request) (h : p.Holds q) :
    q ∈ p.requests ∨ ∃ e ∈ p.cmds, e.2.request = some q := by
  rcases h with h | ⟨k, ins, h1, h2⟩
  · exact Or.inl h
  · exact Or.inr ⟨(k, ins), Map.mem_of_get _ _ _ h1, h2⟩

/-! ## The claims -/

/-- C1 (the code breaks the claim): replica A adopts an `Accept` carrying `[cmdA]` for
slot 1 and then handles the `Commit` for slot 1 carrying `[cmdB]`; replica B handles the
same `Commit` in its initial state. Both mark slot 1 committed, A with `[cmdA]`, which
differs from the commands of the `Commit`, and B with `[cmdB]`. -/
theorem C1_commit_keeps_held_commands :
    ∃ pA eA pB eB iA iB,
      (NewPaxos 5).run env1 [Input.accept acceptA, Input.commit commitB] = some (pA, eA) ∧
      (NewPaxos 5).run env1 [Input.commit commitB] = some (pB, eB) ∧
      Map.get pA.cmds commitB.Slot = some iA ∧ Map.get pB.cmds commitB.Slot = some iB ∧
      iA.committed = true ∧ iB.committed = true ∧
      iA.commands = [cmdA] ∧ iB.commands = [cmdB] ∧
      iA.commands ≠ commitB.Commands ∧ iA.commands ≠ iB.commands :=
  ⟨_, _, _, _, _, _, rfl, rfl, rfl, rfl, rfl, rfl, rfl, rfl, by decide, by decide⟩

/-- C2 (counterexample): three runs of replica `1.1` in which a committed entry loses its
flag. In the first it learns slot 1 from `commitB` and then handles `acceptB`, the `Accept`
for the same slot, ballot and commands, delivered after the `Commit`: the step completes
and leaves slot 1 uncommitted. In the second it learns slot `MinInt64` from `commitBottom`,
buffers `reqA` and wins Phase 1 with a `Promise` whose slot watermark is `MaxInt64`: the
draining loop increments `slot` at `MaxInt64`, which wraps to `MinInt64`, and binds that
slot to the uncommitted instance of `reqA`. In the third the slot counter has overflowed
earlier in the run and stands at `MinInt64` below the committed slot 1; the replica wins
Phase 1 again with a `Promise` whose watermark is 0, and the draining loop, which does not
overflow this time, opens slot 1 anew for `reqB`. -/
theorem C2_counterexample :
    (∃ p e ins r ins2,
      (NewPaxos 5).run env1 [Input.commit commitB] = some (p, e) ∧
      Map.get p.cmds 1 = some ins ∧ ins.committed = true ∧
      p.step env1 (Input.accept acceptB) = some r ∧
      Map.get r.1.cmds 1 = some ins2 ∧ ins2.committed = false) ∧
    (∃ p e ins r ins2,
      (NewPaxos 5).run env1 [Input.commit commitBottom, Input.request reqA] = some (p, e) ∧
      Map.get p.cmds MinInt64 = some ins ∧ ins.committed = true ∧
      p.overflows env1
        (Input.promise { Key := 5, ID := 258, Ballot := 131329, PreSlot := MaxInt64 }) =
        true ∧
      p.step env1
        (Input.promise { Key := 5, ID := 258, Ballot := 131329, PreSlot := MaxInt64 }) =
        some r ∧
      Map.get r.1.cmds MinInt64 = some ins2 ∧ ins2.committed = false) ∧
    (∃ p e ins r ins2,
      (NewPaxos 5).run env1
        [Input.commit commitB, Input.request reqA,
          Input.promise { Key := 5, ID := 258, Ballot := 196865, PreSlot := MaxInt64 },
          Input.prepare { Key := 5, Ballot := 262402 }, Input.request reqB] = some (p, e) ∧
      p.slot = MinInt64 ∧ Map.get p.cmds 1 = some ins ∧ ins.committed = true ∧
      p.overflows env1
        (Input.promise { Key := 5, ID := 258, Ballot := 393473, PreSlot := 0 }) = false ∧
      p.step env1
        (Input.promise { Key := 5, ID := 258, Ballot := 393473, PreSlot := 0 }) = some r ∧
      Map.get r.1.cmds 1 = some ins2 ∧ ins2.committed = false) :=
  ⟨⟨_, _, _, _, _, rfl, rfl, rfl, rfl, rfl, rfl⟩,
   ⟨_, _, _, _, _, rfl, rfl, rfl, rfl, rfl, rfl, rfl⟩,
   ⟨_, _, _, _, _, rfl, rfl, rfl, rfl, rfl, rfl, rfl, rfl⟩⟩

/-- C2 (amended): the committed flag is monotone short of an adopted `Accept` and of
overflow of the slot counter. In every state reachable from `NewPaxos` through handler
steps none of which overflows the slot counter, if `cmds[s]` exists and is committed, then
after every handler step that does not overflow the slot counter and is not a
`handleAccept` with `m.Ballot ≥ ballot` and `m.Slot = s`, `cmds[s]` still exists, is still
committed and has the same commands. -/
theorem C2_committed_monotone (env : Env) (key : Key) (p : paxos) (s : Int)
    (ins : Instance) (i : Input) (r : paxos × List Effect)
    (hreach : ReachableNoOverflow env key p)
    (hs : Map.get p.cmds s = some ins) (hc : ins.committed = true)
    (hno : p.overflows env i = false)
    (hi : ∀ m, i = Input.accept m → m.Ballot ≥ p.ballot → m.Slot ≠ s)
    (h : p.step env i = some r) :
    ∃ ins2, Map.get r.1.cmds s = some ins2 ∧ ins2.committed = true ∧
      ins2.commands = ins.commands :=
  paxos.step_keeps_committed env p i r s ins hs hc
    ((ReachableNoOverflow.inv env key p hreach).1 s ins hs)
    (le_trans (by decide) (ReachableNoOverflow.inv env key p hreach).2.2) hno hi h

theorem C2_committed_monotone_witness :
    ∃ r, learnedSlot1.step env1 (Input.accept acceptSlot2) = some r ∧
      r.1.ballot = 131330 ∧ r.1.slot = 2 ∧
      ∃ ins2, Map.get r.1.cmds 1 = some ins2 ∧ ins2.committed = true ∧
        ins2.commands = [cmdB] :=
  ⟨_, rfl, rfl, rfl,
    C2_committed_monotone env1 5 learnedSlot1 1 _ (Input.accept acceptSlot2) _
      (ReachableNoOverflow.of_checked_run env1 5 _ [Input.commit commitB] (learnedSlot1, [])
        ReachableNoOverflow.init rfl rfl)
      rfl rfl rfl
      (by intro m hm _
          cases hm
          decide)
      rfl⟩

/-- C3 (counterexample): two runs of replica `1.1` that end with `commit = 1` while
`cmds[1]` is not committed. In the first it handles `commitB` and then `acceptB`, the
`Accept` for the same slot, delivered late. In the second no `Accept` is involved: after
`commitB` it buffers `reqA` and wins Phase 1 with a `Promise` whose slot watermark is
`MaxInt64`, so that the draining loop wraps `slot` to `MinInt64`; it is then displaced by
the `Prepare` of replica `1.2`, buffers `reqB` and wins Phase 1 again with a `Promise`
whose watermark is 0, and the draining loop opens slot 1 anew for `reqB`. -/
theorem C3_counterexample :
    (∃ p ins, Reachable env1 5 p ∧
      (NewPaxos 5).run env1 [Input.commit commitB, Input.accept acceptB] =
        some (p, [Effect.Send 513
          (Msg.accepted { Key := 5, ID := 257, Ballot := 66049, Slot := 1 })]) ∧
      p.commit = 1 ∧ Map.get p.cmds 1 = some ins ∧ ins.committed = false) ∧
    (∃ p es ins, Reachable env1 5 p ∧
      (NewPaxos 5).run env1
        [Input.commit commitB, Input.request reqA,
          Input.promise { Key := 5, ID := 258, Ballot := 196865, PreSlot := MaxInt64 },
          Input.prepare { Key := 5, Ballot := 262402 }, Input.request reqB,
          Input.promise { Key := 5, ID := 258, Ballot := 393473, PreSlot := 0 }] =
        some (p, es) ∧
      p.commit = 1 ∧ Map.get p.cmds 1 = some ins ∧ ins.committed = false ∧
      ins.request = some reqB) :=
  ⟨⟨_, _, Reachable.of_run env1 5 _ [Input.commit commitB, Input.accept acceptB] _
      Reachable.init rfl, rfl, rfl, rfl, rfl⟩,
   ⟨_, _, _, Reachable.of_run env1 5 _
      [Input.commit commitB, Input.request reqA,
        Input.promise { Key := 5, ID := 258, Ballot := 196865, PreSlot := MaxInt64 },
        Input.prepare { Key := 5, Ballot := 262402 }, Input.request reqB,
        Input.promise { Key := 5, ID := 258, Ballot := 393473, PreSlot := 0 }] _
      Reachable.init rfl, rfl, rfl, rfl, rfl, rfl⟩⟩

/-- C3 (amended): prefix completeness at one replica, short of late `Accept`s and of
overflow of the slot counter. In every state reachable from `NewPaxos` through handler
steps none of which overflows the slot counter, for every slot `s` with `1 ≤ s ≤ commit`
the entry `cmds[s]` exists, and it is committed or it is the uncommitted entry, with
neither request nor quorum tracker, that `handleAccept` records. -/
theorem C3_prefix_committed (env : Env) (key : Key) (p : paxos)
    (h : ReachableNoOverflow env key p) (s : Int) (h1 : 1 ≤ s) (h2 : s ≤ p.commit) :
    ∃ ins, Map.get p.cmds s = some ins ∧
      (ins.committed = true ∨
        (ins.committed = false ∧ ins.request = none ∧ ins.quorum = none)) :=
  ReachableNoOverflow.prefix_settled env key p h s h1 h2

theorem C3_prefix_committed_witness :
    ∃ r, (NewPaxos 5).run env1 [Input.commit commitB, Input.accept acceptB] = some r ∧
      r.1.commit = 1 ∧
      ∃ ins, Map.get r.1.cmds 1 = some ins ∧
        (ins.committed = true ∨
          (ins.committed = false ∧ ins.request = none ∧ ins.quorum = none)) :=
  ⟨_, rfl, rfl,
    C3_prefix_committed env1 5 _
      (ReachableNoOverflow.of_checked_run env1 5 _ [Input.commit commitB, Input.accept acceptB] _
        ReachableNoOverflow.init rfl rfl)
      1 (le_refl 1) (by decide)⟩

/-- C4 (the code breaks the claim): replica `1.1` wins Phase 1 at its own ballot 65793
and is active; it then handles a `Commit`, or a `LeaderChange` addressed to it, carrying
the higher ballot 131330 of replica `1.2`. In both runs the state reached is active at
ballot 131330, whose leader is `1.2`. -/
theorem C4_active_at_foreign_ballot :
    (∃ p, Reachable env1 5 p ∧ p.active = true ∧ p.ballot = 131330 ∧
      env1.LeaderID p.ballot ≠ env1.ID ∧
      (NewPaxos 5).run env1
        [Input.request reqA, Input.promise promise258, Input.commit commitHigh] =
        some (p, [Effect.Broadcast (Msg.prepare { Key := 5, Ballot := 65793 }),
          Effect.Multicast 1 (Msg.accept
            { Key := 5, Ballot := 65793, Slot := 1, Commands := [cmdA] })])) ∧
    (∃ p, Reachable env1 5 p ∧ p.active = true ∧ p.ballot = 131330 ∧
      env1.LeaderID p.ballot ≠ env1.ID ∧
      (NewPaxos 5).run env1
        [Input.request reqA, Input.promise promise258,
          Input.leaderChange leaderChangeHigh] =
        some (p, [Effect.Broadcast (Msg.prepare { Key := 5, Ballot := 65793 }),
          Effect.Multicast 1 (Msg.accept
            { Key := 5, Ballot := 65793, Slot := 1, Commands := [cmdA] })])) :=
  ⟨⟨_, Reachable.of_run env1 5 _
        [Input.request reqA, Input.promise promise258, Input.commit commitHigh] _
        Reachable.init rfl, rfl, rfl, by decide, rfl⟩,
   ⟨_, Reachable.of_run env1 5 _
        [Input.request reqA, Input.promise promise258, Input.leaderChange leaderChangeHigh] _
        Reachable.init rfl, rfl, rfl, by decide, rfl⟩⟩

/-- C5: ballot monotonicity. If `NextBallot(b, id) > b` for every `b` and `id`, then no
handler step (the seven message handlers and the delayed `prepare`) lowers the ballot,
and neither does `prepare` itself. -/
theorem C5_ballot_monotone (env : Env) (hnb : ∀ b id, env.NextBallot b id > b)
    (p : paxos) (i : Input) (r : paxos × List Effect) (h : p.step env i = some r) :
    r.1.ballot ≥ p.ballot ∧ (p.prepare env).1.ballot ≥ p.ballot :=
  ⟨paxos.step_ballot env hnb p i r h, paxos.prepare_ballot_ge env hnb p⟩

theorem C5_ballot_monotone_witness :
    ∃ r, follower258.step env1 (Input.request reqA) = some r ∧
      (r.1.ballot ≥ follower258.ballot ∧
        (follower258.prepare env1).1.ballot ≥ follower258.ballot) :=
  ⟨_, rfl, C5_ballot_monotone env1 specNextBallot_gt follower258 (Input.request reqA) _ rfl⟩

/-- C6: commit monotonicity. No handler step lowers the commit index, and a step that
changes it is a call of `handleAccepted` or of `handleCommit`. -/
theorem C6_commit_monotone (env : Env) (p : paxos) (i : Input) (r : paxos × List Effect)
    (h : p.step env i = some r) :
    r.1.commit ≥ p.commit ∧
    (r.1.commit ≠ p.commit → (∃ m, i = Input.accepted m) ∨ (∃ m, i = Input.commit m)) :=
  paxos.step_commit env p i r h

theorem C6_commit_monotone_witness :
    ∃ r, (NewPaxos 5).step env1 (Input.commit commitB) = some r ∧ r.1.commit = 1 ∧
      (r.1.commit ≥ (NewPaxos 5).commit ∧
        (r.1.commit ≠ (NewPaxos 5).commit →
          (∃ m, Input.commit commitB = Input.accepted m) ∨
          (∃ m, Input.commit commitB = Input.commit m))) :=
  ⟨_, rfl, rfl, C6_commit_monotone env1 (NewPaxos 5) (Input.commit commitB) _ rfl⟩

/-- C7 (counterexample): replica `1.1` buffers `reqA` and wins Phase 1 with `promiseMax`,
a `Promise` whose slot watermark is `MaxInt64`. The draining loop increments `slot` at
`MaxInt64`, which wraps to `MinInt64`: the state reached has `commit = 0` above
`slot = MinInt64`, and the step has lowered `slot`. -/
theorem C7_counterexample :
    ∃ p0 es0 p es, Reachable env1 5 p ∧
      (NewPaxos 5).run env1 [Input.request reqA] = some (p0, es0) ∧
      p0.overflows env1 (Input.promise promiseMax) = true ∧
      p0.step env1 (Input.promise promiseMax) = some (p, es) ∧
      p0.slot = 0 ∧ p.commit = 0 ∧ p.slot = MinInt64 ∧ ¬ (p.commit ≤ p.slot) ∧
      ¬ (p0.slot ≤ p.slot) :=
  ⟨_, _, _, _, Reachable.of_run env1 5 _ [Input.request reqA, Input.promise promiseMax] _
      Reachable.init rfl, rfl, rfl, rfl, rfl, rfl, rfl, by decide, by decide⟩

/-- C7 (amended): invariant I1 short of overflow of the slot counter. In every state
reachable from `NewPaxos` through handler steps with arbitrary messages, none of which
overflows the slot counter (executes `p.slot++` at `slot = MaxInt64`), `commit ≤ slot`;
every slot bound in `cmds` is at most `slot`; and no further step that does not overflow
the slot counter lowers `slot`. -/
theorem C7_commit_le_slot (env : Env) (key : Key) (p : paxos)
    (h : ReachableNoOverflow env key p) :
    p.commit ≤ p.slot ∧ (∀ k ins, Map.get p.cmds k = some ins → k ≤ p.slot) ∧
    (∀ i r, p.overflows env i = false → p.step env i = some r → p.slot ≤ r.1.slot) :=
  ⟨(ReachableNoOverflow.inv env key p h).2.1, (ReachableNoOverflow.inv env key p h).1,
   fun i r hno hstep =>
     (paxos.step_inv env p i r (ReachableNoOverflow.inv env key p h).1
       (ReachableNoOverflow.inv env key p h).2.1
       (le_trans (by decide) (ReachableNoOverflow.inv env key p h).2.2) hno hstep).2.2⟩

theorem C7_commit_le_slot_witness :
    ∃ r, (NewPaxos 5).run env1
        [Input.request reqA, Input.promise promise258, Input.commit commitB,
          Input.commit commitHigh] = some r ∧
      r.1.commit = 1 ∧ r.1.slot = 7 ∧
      (r.1.commit ≤ r.1.slot ∧ (∀ k ins, Map.get r.1.cmds k = some ins → k ≤ r.1.slot) ∧
        (∀ i r2, r.1.overflows env1 i = false → r.1.step env1 i = some r2 →
          r.1.slot ≤ r2.1.slot)) :=
  ⟨_, rfl, rfl, rfl, C7_commit_le_slot env1 5 _
    (ReachableNoOverflow.of_checked_run env1 5 _
      [Input.request reqA, Input.promise promise258, Input.commit commitB,
        Input.commit commitHigh] _
      ReachableNoOverflow.init rfl rfl)⟩

/-- C8 (counterexample): replica `1.1` buffers `reqA` and wins Phase 1 with `promiseMax`,
whose slot watermark is `MaxInt64`: the draining loop wraps `slot` to `MinInt64` and
proposes `reqA` in that slot. The replica then learns slot `MaxInt64` from `commitTop`;
it holds `reqA` and `slot = MaxInt64`. Handling `reqB` increments `slot`, which wraps to
`MinInt64` again, and rebinds that slot to the instance of `reqB`: the step completes
with one `Accept` multicast as its only effect, and `reqA` is no longer held. -/
theorem C8_counterexample :
    ∃ p es p2, Reachable env1 5 p ∧
      (NewPaxos 5).run env1
        [Input.request reqA, Input.promise promiseMax, Input.commit commitTop] =
        some (p, es) ∧
      p.slot = MaxInt64 ∧ p.Holds reqA ∧
      p.step env1 (Input.request reqB) =
        some (p2, [Effect.Multicast 1
          (Msg.accept { Key := 5, Ballot := 65793, Slot := MinInt64,
                        Commands := [cmdB] })]) ∧
      ¬ p2.Holds reqA :=
  ⟨_, _, _, Reachable.of_run env1 5 _
      [Input.request reqA, Input.promise promiseMax, Input.commit commitTop] _
      Reachable.init rfl, rfl, rfl, Or.inr ⟨MinInt64, _, rfl, rfl⟩, rfl,
    fun h => absurd (paxos.Holds_mem _ _ h) (by decide)⟩

/-- C8 (amended): no request is dropped by a step as long as the slot counter has not
overflowed before the step. In every state reachable from `NewPaxos` through handler
steps none of which overflows the slot counter, after a handler step that completes
(`slot`, the length of `requests` and the slot watermark of a `Promise` being Go `int`s,
at most `MaxInt64`), each request held before the step, in `requests` or in the `request`
field of a `cmds` entry, is still held, or has been posted to the inbound channel, or has
been answered with a `Reply`. In particular the request of an entry replaced by
`handleAccept`, and the request of an entry deleted by `handleAccepted`, is posted to the
inbound channel. -/
theorem C8_no_request_dropped (env : Env) (key : Key) (p : paxos)
    (hreach : ReachableNoOverflow env key p) (hslot : p.slot ≤ MaxInt64)
    (hlen : (p.requests.length : Int) ≤ MaxInt64) :
    (∀ i r q, (∀ m, i = Input.promise m → m.PreSlot ≤ MaxInt64) →
      p.step env i = some r → p.Holds q →
      r.1.Holds q ∨ Effect.MessageChan q ∈ r.2 ∨ ∃ rep, Effect.Reply q rep ∈ r.2) ∧
    (∀ (m : Accept) r ins q, p.handleAccept env m = some r → m.Ballot ≥ p.ballot →
      Map.get p.cmds m.Slot = some ins → ins.request = some q →
      Effect.MessageChan q ∈ r.2) ∧
    (∀ (m : Accepted) r ins q, p.handleAccepted env m = some r →
      Map.get p.cmds m.Slot = some ins → ins.committed = false → m.Ballot > ins.ballot →
      ins.request = some q →
      Map.get r.1.cmds m.Slot = none ∧ Effect.MessageChan q ∈ r.2) := by
  refine ⟨fun i r q hi h hq =>
    paxos.step_no_drop env p i r (ReachableNoOverflow.inv env key p hreach).1
      (ReachableNoOverflow.reqkeys env key p hreach)
      (ReachableNoOverflow.inv env key p hreach).2.2 hslot hlen hi h q hq,
    ?_, ?_⟩
  · intro m r ins q h hb hget hreq
    simp only [paxos.handleAccept, Option.some.injEq] at h
    subst h
    simp [hb, hget, hreq]
  · intro m r ins q h hget hc hb hreq
    have h1 : ¬ (m.Ballot < ins.ballot) := by omega
    have h2 : ¬ (m.Ballot = ins.ballot) := by omega
    simp only [paxos.handleAccepted, hget, hc, h1, h2, hreq, or_self, if_false,
      Bool.false_eq_true, Option.some.injEq] at h
    subst h
    refine ⟨?_, by simp⟩
    rw [(paxos.adoptBallot_frame _ _).1]
    exact Map.get_del_same _ _

theorem C8_no_request_dropped_witness :
    (∃ p es r, (NewPaxos 5).run env1 [Input.request reqA, Input.promise promiseBelowMax] =
        some (p, es) ∧
      p.slot = MaxInt64 ∧ p.Holds reqA ∧
      p.step env1 (Input.request reqB) = some r ∧ r.1.slot = MinInt64 ∧
      (r.1.Holds reqA ∨ Effect.MessageChan reqA ∈ r.2 ∨
        ∃ rep, Effect.Reply reqA rep ∈ r.2)) ∧
    (NewPaxos 5).run env1 [Input.request reqA, Input.promise promise258] =
      some (leaderWithSlot1,
        [Effect.Broadcast (Msg.prepare { Key := 5, Ballot := 65793 }),
         Effect.Multicast 1
           (Msg.accept { Key := 5, Ballot := 65793, Slot := 1, Commands := [cmdA] })]) ∧
    leaderWithSlot1.Holds reqA ∧
    Effect.MessageChan reqA ∈
      [Effect.MessageChan reqA, Effect.Send 513
        (Msg.accepted { Key := 5, ID := 257, Ballot := 66049, Slot := 1 })] :=
  have hreach : ReachableNoOverflow env1 5 leaderWithSlot1 :=
    ReachableNoOverflow.of_checked_run env1 5 _ [Input.request reqA, Input.promise promise258]
      (leaderWithSlot1, _) ReachableNoOverflow.init rfl rfl
  have hholds : leaderWithSlot1.Holds reqA := Or.inr ⟨1, _, rfl, rfl⟩
  ⟨⟨_, _, _, rfl, rfl, Or.inr ⟨MaxInt64, _, rfl, rfl⟩, rfl, rfl,
      (C8_no_request_dropped env1 5 _
        (ReachableNoOverflow.of_checked_run env1 5 _
          [Input.request reqA, Input.promise promiseBelowMax] _
          ReachableNoOverflow.init rfl rfl)
        (by decide) (by decide)).1 (Input.request reqB) _ reqA
        (by intro m hm; cases hm) rfl (Or.inr ⟨MaxInt64, _, rfl, rfl⟩)⟩,
    rfl, hholds,
    (C8_no_request_dropped env1 5 leaderWithSlot1 hreach (by decide) (by decide)).2.1
      acceptB _ _ reqA rfl (by decide) rfl rfl⟩

/-- C9: redirect of a misdirected request. When `handleRequest` runs in a state that is
not active, whose ballot is non-zero and led by another replica, with `Threshold > 0`,
it leaves the per-key state unchanged and its only effect is one `Reply` to the request
with `OK = false`, `LeaderID = LeaderID(ballot)` and the request's command id, client id,
command and timestamp: nothing is sent to a replica and the request is not enqueued. -/
theorem C9_redirect (env : Env) (p : paxos) (msg : Request)
    (hactive : p.active = false) (hleader : env.LeaderID p.ballot ≠ env.ID)
    (hthreshold : env.Threshold > 0) (hballot : p.ballot ≠ 0) :
    p.handleRequest env msg =
      some (p, [Effect.Reply msg
        { OK := false, CommandID := msg.CommandID, LeaderID := env.LeaderID p.ballot,
          ClientID := msg.ClientID, Command := msg.Command,
          Timestamp := msg.Timestamp }]) := by
  unfold paxos.handleRequest
  simp [hactive, hleader, hthreshold, hballot]

theorem C9_redirect_witness :
    follower258.handleRequest env2 reqA =
      some (follower258, [Effect.Reply reqA
        { OK := false, CommandID := 1, LeaderID := 258, ClientID := 257, Command := cmdA,
          Timestamp := 0 }]) :=
  C9_redirect env2 follower258 reqA rfl (by decide) (by decide) (by decide)

/-- C10 (the code breaks the claim): replica `1.1`, in its initial state (ballot 0, not
active, no leader known, `Threshold = 0`), handles `reqA`. The request is enqueued, the
Phase-1 quorum holds the self-ack and one `Prepare` is broadcast, but the new ballot is
`NextBallot(NextBallot(0, self), self) = 65793`, not `NextBallot(0, self) = 257`. -/
theorem C10_ballot_advanced_twice :
    (NewPaxos 5).active = false ∧ env1.LeaderID (NewPaxos 5).ballot ≠ env1.ID ∧
    env1.Threshold = 0 ∧
    ∃ p, (NewPaxos 5).handleRequest env1 reqA =
        some (p, [Effect.Broadcast (Msg.prepare { Key := 5, Ballot := 65793 })]) ∧
      p.requests = [reqA] ∧ p.quorum = some [env1.ID] ∧
      p.ballot = env1.NextBallot (env1.NextBallot (NewPaxos 5).ballot env1.ID) env1.ID ∧
      p.ballot = 65793 ∧ env1.NextBallot (NewPaxos 5).ballot env1.ID = 257 ∧
      p.ballot ≠ env1.NextBallot (NewPaxos 5).ballot env1.ID :=
  ⟨rfl, by decide, rfl, _, rfl, rfl, rfl, rfl, rfl, rfl, by decide⟩

/-- C11: acknowledgement soundness of `handleAccept`. For every state and `Accept` `m`
the handler completes; its effects are at most reposted requests followed by exactly one
`Send` of `Accepted{key, ID = self, Ballot = ballot after the step, Slot = m.Slot}` to
`LeaderID(m.Ballot)`. The ballot after the step equals `m.Ballot` if and only if
`m.Ballot ≥` the ballot before; in that case `cmds[m.Slot]` is afterwards
`{ballot = m.Ballot, commands = m.Commands, committed = false}` without request or
quorum, `slot = max(slot, m.Slot)` and `active = false`; otherwise the state is unchanged. -/
theorem C11_accept_acknowledged (env : Env) (p : paxos) (m : Accept) :
    ∃ p2 pre, p.handleAccept env m =
        some (p2, pre ++ [Effect.Send (env.LeaderID m.Ballot)
          (Msg.accepted { Key := p.key, ID := env.ID, Ballot := p2.ballot, Slot := m.Slot })]) ∧
      (∀ e, e ∈ pre → ∃ req, e = Effect.MessageChan req) ∧
      (p2.ballot = m.Ballot ↔ m.Ballot ≥ p.ballot) ∧
      (m.Ballot ≥ p.ballot →
        Map.get p2.cmds m.Slot = some
          { ballot := m.Ballot, commands := m.Commands, committed := false,
            request := none, quorum := none } ∧
        p2.slot = max p.slot m.Slot ∧ p2.active = false) ∧
      (m.Ballot < p.ballot → p2 = p ∧ pre = []) := by
  by_cases hb : m.Ballot ≥ p.ballot
  · refine ⟨{ p with
                ballot := m.Ballot, active := false, slot := Max p.slot m.Slot,
                cmds := Map.set p.cmds m.Slot
                  { ballot := m.Ballot, commands := m.Commands, committed := false,
                    request := none, quorum := none } },
              (match Map.get p.cmds m.Slot with
               | some ins =>
                 match ins.request with
                 | some req => [Effect.MessageChan req]
                 | none => []
               | none => []),
              by simp only [paxos.handleAccept, hb, if_true], ?_, ?_, ?_, ?_⟩
    · intro e he
      split at he
      · split at he
        · simp only [List.mem_singleton] at he
          exact ⟨_, he⟩
        · simp at he
      · simp at he
    · simp [hb]
    · intro _
      refine ⟨Map.get_set_same _ _ _, ?_, rfl⟩
      simp only [Max, max_def]
      split_ifs <;> omega
    · intro hlt
      omega
  · refine ⟨p, [], by simp only [paxos.handleAccept, hb, if_false, List.nil_append], ?_, ?_,
      ?_, ?_⟩
    · intro e he
      simp at he
    · constructor
      · intro h; omega
      · intro h; exact absurd h hb
    · intro h
      exact absurd h hb
    · intro _
      exact ⟨rfl, rfl⟩

/-- C12 (the code breaks the claim): `handleAccepted` on an instance recorded by
`handleAccept`. Replica `1.1` adopts `acceptA` for slot 1; the instance is uncommitted, at
ballot 258, with neither request nor quorum tracker. An `Accepted` for slot 1 at ballot
258, and one at the higher ballot 131330, each make `handleAccepted` panic. So does the
`Accepted` that reaches replica `1.1` after it opened slot 1 as leader and was displaced
there by the `Accept` of replica `1.2`. -/
theorem C12_accepted_nil_dereference :
    (∃ p es ins, (NewPaxos 5).run env1 [Input.accept acceptA] = some (p, es) ∧
      Map.get p.cmds 1 = some ins ∧ ins.committed = false ∧ ins.ballot = 258 ∧
      ins.request = none ∧ ins.quorum = none ∧
      p.handleAccepted env1 acceptedA = none ∧
      p.handleAccepted env1 acceptedHigh = none) ∧
    (NewPaxos 5).run env1
      [Input.request reqA, Input.promise promise258, Input.accept acceptHigh,
        Input.accepted acceptedHigh] = none :=
  ⟨⟨_, _, _, rfl, rfl, rfl, rfl, rfl, rfl, rfl, rfl⟩, rfl⟩

/-- C13 (the code breaks the claim): a router without instance for key 5 is handed a
`Promise` and an `Accepted` for key 5; each dispatch panics on the nil `*paxos` instead
of dropping the message. -/
theorem C13_unknown_key_panics :
    Map.get NewReplica.paxi promise258.Key = none ∧
    NewReplica.messageLoop env1 (Message.promise promise258) = none ∧
    NewReplica.messageLoop env1 (Message.accepted acceptedHigh) = none ∧
    Map.get replica59.paxi 7 = none ∧
    replica59.messageLoop env1
      (Message.promise { Key := 7, ID := 258, Ballot := 65793, PreSlot := 0 }) = none :=
  ⟨rfl, rfl, rfl, rfl, rfl⟩

/-- C14 (the code breaks the claim): a `LeaderChange` for key 5 handed to a router without
instance for key 5 panics on the nil `*paxos`: `handleLeaderChange` does not call `init`.
A `Prepare` for the same key is dispatched to completion on a new instance. -/
theorem C14_leader_change_unknown_key :
    NewReplica.messageLoop env1 (Message.leaderChange leaderChangeHigh) = none ∧
    NewReplica.messageLoop env1 (Message.prepare { Key := 5, Ballot := 258 }) =
      some ({ paxi := [(5, follower258)] },
        [Effect.Send 258
          (Msg.promise { Key := 5, ID := 257, Ballot := 258, PreSlot := 0 })]) :=
  ⟨rfl, rfl⟩

/-- C15 (counterexample): replica `1.1` buffers `reqA` and wins Phase 1 with
`promiseBelowMax`, whose slot watermark is `MaxInt64 - 1`; it is then active with
`slot = MaxInt64`. Handling `reqB` increments `slot`, which wraps to `MinInt64`: `slot`
has not grown by one but fallen, and the new instance is bound to slot `MinInt64`. -/
theorem C15_counterexample :
    ∃ p es p2 es2 ins, Reachable env1 5 p ∧
      (NewPaxos 5).run env1 [Input.request reqA, Input.promise promiseBelowMax] =
        some (p, es) ∧
      p.active = true ∧ p.slot = MaxInt64 ∧
      p.overflows env1 (Input.request reqB) = true ∧
      p.handleRequest env1 reqB = some (p2, es2) ∧
      p2.slot = MinInt64 ∧ p2.slot ≠ p.slot + 1 ∧ p2.slot < p.slot ∧
      Map.get p2.cmds MinInt64 = some ins ∧ ins.request = some reqB ∧
      Map.get p2.cmds (p.slot + 1) = none :=
  ⟨_, _, _, _, _, Reachable.of_run env1 5 _
      [Input.request reqA, Input.promise promiseBelowMax] _ Reachable.init rfl,
    rfl, rfl, rfl, rfl, rfl, rfl, by decide, by decide, rfl, rfl, rfl⟩

/-- C15 (amended): opening a slot on the active leader, below the largest slot number. In
a state with `active = true` and `slot < MaxInt64` (`slot` a Go `int`, so
`MinInt64 ≤ slot`), `handleRequest(req)` completes; afterwards `slot` has grown by one,
`cmds[slot]` is an uncommitted instance at the local ballot with
`commands = [req.Command]`, `request = req` and a quorum holding the self-ack; the first
effect is the `Multicast` of `Accept{key, ballot, slot, [req.Command]}` to the replica's
own zone and any further effect is a `Send` of a `LeaderChange`; `ballot`, `active`,
`commit`, `requests` and every other `cmds` entry are unchanged. -/
theorem C15_open_slot (env : Env) (p : paxos) (req : Request) (hactive : p.active = true)
    (hmin : MinInt64 ≤ p.slot) (hmax : p.slot < MaxInt64) :
    ∃ p2 rest, p.handleRequest env req =
        some (p2, Effect.Multicast (env.Site env.ID)
          (Msg.accept { Key := p.key, Ballot := p.ballot, Slot := p.slot + 1,
                        Commands := [req.Command] }) :: rest) ∧
      (∀ e, e ∈ rest → ∃ dst lc, e = Effect.Send dst (Msg.leaderChange lc)) ∧
      p2.slot = p.slot + 1 ∧
      Map.get p2.cmds p2.slot = some
        { ballot := p.ballot, commands := [req.Command], committed := false,
          request := some req, quorum := some [env.ID] } ∧
      p2.ballot = p.ballot ∧ p2.active = p.active ∧ p2.commit = p.commit ∧
      p2.requests = p.requests ∧
      (∀ k, k ≠ p.slot + 1 → Map.get p2.cmds k = Map.get p.cmds k) := by
  have hw : wrap64 (p.slot + 1) = p.slot + 1 := wrap64_succ _ hmin hmax
  have hclosed := paxos.handleRequest_active env p req hactive
  rw [hw] at hclosed
  refine ⟨_, _, hclosed, ?_, rfl, ?_, rfl, ?_, rfl, rfl, ?_⟩
  · intro e he
    split_ifs at he
    · simp only [List.mem_singleton] at he
      exact ⟨_, _, he⟩
    · simp at he
  · exact Map.get_set_same _ _ _
  · rfl
  · intro k hk
    exact Map.get_set_ne _ _ _ _ hk

theorem C15_open_slot_witness :
    ∃ p2 rest, leaderWithSlot1.handleRequest env1 reqB =
        some (p2, Effect.Multicast (env1.Site env1.ID)
          (Msg.accept { Key := leaderWithSlot1.key, Ballot := leaderWithSlot1.ballot,
                        Slot := leaderWithSlot1.slot + 1,
                        Commands := [reqB.Command] }) :: rest) ∧
      (∀ e, e ∈ rest → ∃ dst lc, e = Effect.Send dst (Msg.leaderChange lc)) ∧
      p2.slot = leaderWithSlot1.slot + 1 ∧
      Map.get p2.cmds p2.slot = some
        { ballot := leaderWithSlot1.ballot, commands := [reqB.Command], committed := false,
          request := some reqB, quorum := some [env1.ID] } ∧
      p2.ballot = leaderWithSlot1.ballot ∧ p2.active = leaderWithSlot1.active ∧
      p2.commit = leaderWithSlot1.commit ∧ p2.requests = leaderWithSlot1.requests ∧
      (∀ k, k ≠ leaderWithSlot1.slot + 1 →
        Map.get p2.cmds k = Map.get leaderWithSlot1.cmds k) :=
  C15_open_slot env1 leaderWithSlot1 reqB rfl (by decide) (by decide)

/-- C16 (counterexample): replica `1.1` has buffered `reqA` in its initial state; it is
not active, holds one request and the Phase-1 tracker with its self-ack. The `Promise`
`promiseMax` carries its ballot, which is its own, completes the quorum and has the slot
watermark `MaxInt64`. After `handlePromise` the slot counter is `MinInt64`, not
`max(slot, PreSlot) + 1`, and the instance of `reqA` is bound to slot `MinInt64`, while
slot `max(slot, PreSlot) + 1` is not bound. -/
theorem C16_counterexample :
    ∃ p es p2 es2 ins,
      (NewPaxos 5).run env1 [Input.request reqA] = some (p, es) ∧
      p.active = false ∧ p.requests = [reqA] ∧ p.quorum = some [257] ∧
      promiseMax.Ballot = p.ballot ∧ env1.LeaderID promiseMax.Ballot = env1.ID ∧
      env1.Q1 (Quorum.ACK [257] promiseMax.ID) = true ∧
      p.handlePromise env1 promiseMax = some (p2, es2) ∧
      p2.slot = MinInt64 ∧ p2.slot ≠ max p.slot promiseMax.PreSlot + p.requests.length ∧
      Map.get p2.cmds MinInt64 = some ins ∧ ins.request = some reqA ∧
      Map.get p2.cmds (max p.slot promiseMax.PreSlot + 1) = none :=
  ⟨_, _, _, _, _, rfl, rfl, rfl, rfl, rfl, by decide, by decide, rfl, rfl, by decide, rfl,
    rfl, by decide⟩

/-- C16 (amended): draining the queue on winning Phase 1, within the range of slot
numbers. In a state that is not active, holds the buffered requests `requests` and has a
Phase-1 quorum tracker, a `Promise` `m` with `m.Ballot = ballot`,
`LeaderID(m.Ballot) = self` whose acknowledgement makes `Q1()` true, and with
`s0 + n ≤ MaxInt64` for `s0 = max(slot, m.PreSlot)` (a Go `int`, so `MinInt64 ≤ s0`) and
`n` the number of buffered requests, is handled to completion; afterwards `active = true`,
`requests` is empty, `slot = s0 + n`, and for request number `i` (counted from 0)
`cmds[s0 + i + 1]` is an uncommitted instance at the local ballot with
`commands = [r.Command]` and `request = r`; the effects are the `n` `Accept` multicasts
for the slots `s0 + 1 .. s0 + n`, in that order. -/
theorem C16_drain_queue (env : Env) (p : paxos) (m : Promise) (q : Quorum)
    (hactive : p.active = false) (hb : m.Ballot = p.ballot)
    (hl : env.LeaderID m.Ballot = env.ID) (hq : p.quorum = some q)
    (hq1 : env.Q1 (q.ACK m.ID) = true)
    (hmin : MinInt64 ≤ max p.slot m.PreSlot)
    (hno : max p.slot m.PreSlot + p.requests.length ≤ MaxInt64) :
    ∃ p2 es, p.handlePromise env m = some (p2, es) ∧
      p2.active = true ∧ p2.requests = [] ∧ p2.ballot = p.ballot ∧
      p2.slot = max p.slot m.PreSlot + p.requests.length ∧
      es.length = p.requests.length ∧
      ∀ (i : Nat) (r : Request), p.requests[i]? = some r →
        Map.get p2.cmds (max p.slot m.PreSlot + i + 1) = some
          { ballot := p.ballot, commands := [r.Command], committed := false,
            request := some r, quorum := some [env.ID] } ∧
        es[i]? = some (Effect.Multicast (env.Site env.ID)
          (Msg.accept { Key := p.key, Ballot := p.ballot,
                        Slot := max p.slot m.PreSlot + i + 1,
                        Commands := [r.Command] })) :=
  ⟨_, _, paxos.handlePromise_win env p m q hactive hb hl hq hq1,
    (paxos.acceptAll_frame env _ _).2.2.1,
    rfl,
    (paxos.acceptAll_frame env _ _).1,
    paxos.acceptAll_slot env _ _ hmin hno,
    (paxos.acceptAll_new env _ _ hmin hno).1,
    (paxos.acceptAll_new env _ _ hmin hno).2⟩

theorem C16_drain_queue_witness :
    ∃ p2 es, preparing.handlePromise env1 { Key := 5, ID := 258, Ballot := 65793, PreSlot := 4 } =
        some (p2, es) ∧
      p2.active = true ∧ p2.requests = [] ∧ p2.ballot = preparing.ballot ∧
      p2.slot = max preparing.slot 4 + preparing.requests.length ∧
      es.length = preparing.requests.length ∧
      ∀ (i : Nat) (r : Request), preparing.requests[i]? = some r →
        Map.get p2.cmds (max preparing.slot 4 + i + 1) = some
          { ballot := preparing.ballot, commands := [r.Command], committed := false,
            request := some r, quorum := some [env1.ID] } ∧
        es[i]? = some (Effect.Multicast (env1.Site env1.ID)
          (Msg.accept { Key := preparing.key, Ballot := preparing.ballot,
                        Slot := max preparing.slot 4 + i + 1,
                        Commands := [r.Command] })) :=
  C16_drain_queue env1 preparing { Key := 5, ID := 258, Ballot := 65793, PreSlot := 4 } [257]
    rfl rfl (by decide) rfl (by decide) (by decide) (by decide)

/-- C17: a stale `Accepted` changes nothing. If `cmds[m.Slot]` is absent, or committed, or
has a ballot greater than `m.Ballot`, `handleAccepted(m)` returns the state as it was and
has no effect: nothing is sent, answered or reposted. -/
theorem C17_stale_accepted (env : Env) (p : paxos) (m : Accepted)
    (hstale : Map.get p.cmds m.Slot = none ∨
      ∃ ins, Map.get p.cmds m.Slot = some ins ∧
        (ins.committed = true ∨ ins.ballot > m.Ballot)) :
    p.handleAccepted env m = some (p, []) := by
  rcases hstale with h | ⟨ins, h, hc⟩
  · simp only [paxos.handleAccepted, h]
  · have hc2 : ins.committed = true ∨ m.Ballot < ins.ballot := hc
    simp only [paxos.handleAccepted, h, hc2, if_true]

theorem C17_stale_accepted_witness :
    learnedSlot1.handleAccepted env1 { Key := 5, ID := 258, Ballot := 66049, Slot := 1 } =
      some (learnedSlot1, []) :=
  C17_stale_accepted env1 learnedSlot1 { Key := 5, ID := 258, Ballot := 66049, Slot := 1 }
    (Or.inr ⟨_, rfl, Or.inl rfl⟩)

/-- C18: postcondition of `handleCommit`. The handler completes without effect;
afterwards `ballot = max(ballot, m.Ballot)` and `slot = max(slot, m.Slot)`; `cmds[m.Slot]`
exists and is committed: it is `{commands = m.Commands, ballot = m.Ballot}` if the slot was
absent and the old instance marked committed otherwise; every other `cmds` entry is
unchanged; and `commit` has been advanced greedily: it has not decreased, every slot in
`(old commit, new commit]` is bound and committed, and `cmds[new commit + 1]` is absent
or uncommitted. -/
theorem C18_commit_postcondition (p : paxos) (m : Commit) :
    ∃ p2 ins, p.handleCommit m = some (p2, []) ∧
      p2.ballot = max p.ballot m.Ballot ∧ p2.slot = max p.slot m.Slot ∧
      Map.get p2.cmds m.Slot = some ins ∧ ins.committed = true ∧
      (Map.get p.cmds m.Slot = none →
        ins = { commands := m.Commands, ballot := m.Ballot, committed := true,
                request := none, quorum := none }) ∧
      (∀ old, Map.get p.cmds m.Slot = some old → ins = { old with committed := true }) ∧
      (∀ k, k ≠ m.Slot → Map.get p2.cmds k = Map.get p.cmds k) ∧
      p.commit ≤ p2.commit ∧
      (∀ s, p.commit < s → s ≤ p2.commit →
        ∃ i, Map.get p2.cmds s = some i ∧ i.committed = true) ∧
      (∀ i, Map.get p2.cmds (p2.commit + 1) = some i → i.committed = false) := by
  refine ⟨_, _, paxos.handleCommit_eq p m, rfl, rfl, Map.get_set_same _ _ _, ?_, ?_, ?_, ?_,
    advance_ge _ _ _, ?_, ?_⟩
  · split <;> rfl
  · intro h
    rw [h]
  · intro old h
    rw [h]
  · intro k hk
    exact Map.get_set_ne _ _ _ _ hk
  · intro s h1 h2
    exact advance_committed _ _ _ s h1 h2
  · exact advance_exit _ _

/-- C19: leader handover. If `m.To` is another replica, `handleLeaderChange(m)` returns
the state as it was and has no effect. If `m.To = self` and the replica is not active,
then afterwards `ballot = NextBallot(max(ballot, m.Ballot), self)`, the Phase-1 quorum
holds exactly the self-ack and the only effect is the broadcast of one
`Prepare{key, ballot}`; when `NextBallot(b, self)` is a ballot of `self` greater than `b`,
as the spec has it, the new ballot is led by `self` and is greater than `m.Ballot`. -/
theorem C19_leader_handover (env : Env) (p : paxos) (m : LeaderChange)
    (hgt : ∀ b, env.NextBallot b env.ID > b)
    (hown : ∀ b, env.LeaderID (env.NextBallot b env.ID) = env.ID) :
    (m.To ≠ env.ID → p.handleLeaderChange env m = some (p, [])) ∧
    (m.To = env.ID → p.active = false →
      ∃ p2, p.handleLeaderChange env m =
          some (p2, [Effect.Broadcast (Msg.prepare { Key := p.key, Ballot := p2.ballot })]) ∧
        p2.ballot = env.NextBallot (max p.ballot m.Ballot) env.ID ∧
        env.LeaderID p2.ballot = env.ID ∧ p2.ballot > m.Ballot ∧
        p2.quorum = some [env.ID]) := by
  have hmax : Max p.ballot m.Ballot = max p.ballot m.Ballot := by
    simp only [Max, max_def]
    split_ifs <;> omega
  constructor
  · intro hto
    simp only [paxos.handleLeaderChange, hto, if_false]
  · intro hto hactive
    refine ⟨{ p with
                ballot := env.NextBallot (max p.ballot m.Ballot) env.ID,
                quorum := some [env.ID] }, ?_, rfl, hown _, ?_, rfl⟩
    · simp [paxos.handleLeaderChange, hto, paxos.prepare, hactive, paxos.NextBallot, hmax,
        NewQuorum, Quorum.ACK]
    · have h1 := hgt (max p.ballot m.Ballot)
      have h2 := le_max_right p.ballot m.Ballot
      show env.NextBallot (max p.ballot m.Ballot) env.ID > m.Ballot
      omega

theorem C19_leader_handover_witness :
    (leaderChangeHigh.To = env1.ID ∧ follower258.active = false) ∧
    ((leaderChangeHigh.To ≠ env1.ID →
        follower258.handleLeaderChange env1 leaderChangeHigh = some (follower258, [])) ∧
     (leaderChangeHigh.To = env1.ID → follower258.active = false →
      ∃ p2, follower258.handleLeaderChange env1 leaderChangeHigh =
          some (p2, [Effect.Broadcast
            (Msg.prepare { Key := follower258.key, Ballot := p2.ballot })]) ∧
        p2.ballot = env1.NextBallot (max follower258.ballot leaderChangeHigh.Ballot) env1.ID ∧
        env1.LeaderID p2.ballot = env1.ID ∧ p2.ballot > leaderChangeHigh.Ballot ∧
        p2.quorum = some [env1.ID])) :=
  ⟨⟨rfl, rfl⟩, C19_leader_handover env1 follower258 leaderChangeHigh
    (fun b => specNextBallot_gt b 257) specNextBallot_own⟩

/-- C20: per-key isolation and no deletion in the router. When the dispatch of a message
carrying key `k` completes, the instance of every other key is unchanged, every key that
was bound is still bound, and an instance that existed for `k` has been handled in
place: `init` left the map as it was and `k` is bound to the result of the per-key
handler on that instance, whose effects are the effects of the dispatch. -/
theorem C20_router_isolation (env : Env) (r : Replica) (msg : Message)
    (res : Replica × List Effect) (h : r.messageLoop env msg = some res) :
    (∀ k, k ≠ msg.key → Map.get res.1.paxi k = Map.get r.paxi k) ∧
    (∀ k p, Map.get r.paxi k = some p → ∃ p2, Map.get res.1.paxi k = some p2) ∧
    (∀ p, Map.get r.paxi msg.key = some p →
      r.init msg.key = r ∧
      ∃ out, p.step env msg.input = some out ∧
        Map.get res.1.paxi msg.key = some out.1 ∧ res.2 = out.2) := by
  obtain ⟨r1, p1, out, hr1, hget, hstep, hpaxi, heff⟩ :=
    Replica.messageLoop_some env r msg res h
  have hother : ∀ k, k ≠ msg.key → Map.get res.1.paxi k = Map.get r.paxi k := by
    intro k hk
    rw [hpaxi, Map.get_set_ne _ _ _ _ hk]
    rcases hr1 with h1 | h1
    · rw [h1]
    · rw [h1, Replica.init_get_ne _ _ _ hk]
  have hsame : Map.get res.1.paxi msg.key = some out.1 := by
    rw [hpaxi]
    exact Map.get_set_same _ _ _
  refine ⟨hother, ?_, ?_⟩
  · intro k p hp
    by_cases hk : k = msg.key
    · exact ⟨out.1, by rw [hk]; exact hsame⟩
    · exact ⟨p, by rw [hother k hk]; exact hp⟩
  · intro p hp
    have hinit := Replica.init_of_bound r msg.key p hp
    refine ⟨hinit, out, ?_, hsame, heff⟩
    have hr : r1 = r := by
      rcases hr1 with h1 | h1
      · exact h1
      · rw [h1, hinit]
    rw [hr, hp] at hget
    cases hget
    exact hstep

theorem C20_router_isolation_witness :
    ∃ res, replica59.messageLoop env1 (Message.accept acceptA) = some res ∧
      Map.get res.1.paxi 9 = some (NewPaxos 9) ∧
      ((∀ k, k ≠ (Message.accept acceptA).key →
          Map.get res.1.paxi k = Map.get replica59.paxi k) ∧
       (∀ k p, Map.get replica59.paxi k = some p → ∃ p2, Map.get res.1.paxi k = some p2) ∧
       (∀ p, Map.get replica59.paxi (Message.accept acceptA).key = some p →
          replica59.init (Message.accept acceptA).key = replica59 ∧
          ∃ out, p.step env1 (Message.accept acceptA).input = some out ∧
            Map.get res.1.paxi (Message.accept acceptA).key = some out.1 ∧
            res.2 = out.2)) :=
  ⟨_, rfl, rfl, C20_router_isolation env1 replica59 (Message.accept acceptA) _ rfl⟩

/-- C21 (the code breaks the claim): a client of three nodes, each with an HTTP address.
`QuorumPut` sends the write to one node and `QuorumGet` sends the read to one node, not to
more than `3/2`; `QuorumGet` then waits for three values on a channel that carries one. -/
theorem C21_quorum_reaches_one_of_three :
    client3.N = 3 ∧ client3.http.length = 3 ∧
    (client3.QuorumPut 5 (some [7])).2 = [{ id := "1.1", key := 5, value := some [7] }] ∧
    (client3.QuorumGet 5).calls = [{ id := "1.1", key := 5, value := none }] ∧
    ¬ (2 * (client3.QuorumPut 5 (some [7])).2.length > 3) ∧
    ¬ (2 * (client3.QuorumGet 5).calls.length > 3) ∧
    (client3.QuorumGet 5).receives = 3 ∧ (client3.QuorumGet 5).returns = false :=
  ⟨rfl, rfl, rfl, rfl, by decide, by decide, rfl, rfl⟩

/-- C22: the consensus check over the collected histories. For a client whose node ids
are distinct, with the history of a node that could not be fetched or decoded counted as
empty, `Consensus` returns `false` if and only if there are an index `i` and two nodes
whose histories both have a value at position `i` and these values differ; otherwise it
returns `true`, in particular when the histories are prefixes of one another. -/
theorem C22_consensus_check (c : Client) (fetch : String → Option (List Value))
    (hnodup : (c.http.map Prod.fst).Nodup) :
    (c.Consensus fetch = false ↔
      ∃ (i : Nat) (b1 b2 : NodeID × String) (v1 v2 : Value), b1 ∈ c.http ∧ b2 ∈ c.http ∧
        (nodeHistory fetch b1)[i]? = some v1 ∧ (nodeHistory fetch b2)[i]? = some v2 ∧
        v1 ≠ v2) ∧
    (c.Consensus fetch = true ↔
      ¬ ∃ (i : Nat) (b1 b2 : NodeID × String) (v1 v2 : Value), b1 ∈ c.http ∧ b2 ∈ c.http ∧
        (nodeHistory fetch b1)[i]? = some v1 ∧ (nodeHistory fetch b2)[i]? = some v2 ∧
        v1 ≠ v2) ∧
    ((∀ b1 b2, b1 ∈ c.http → b2 ∈ c.http →
        nodeHistory fetch b1 <+: nodeHistory fetch b2 ∨
        nodeHistory fetch b2 <+: nodeHistory fetch b1) →
      c.Consensus fetch = true) := by
  have hiff := Client.Consensus_false_iff c fetch hnodup
  have htrue : c.Consensus fetch = true ↔
      ¬ ∃ (i : Nat) (b1 b2 : NodeID × String) (v1 v2 : Value), b1 ∈ c.http ∧ b2 ∈ c.http ∧
        (nodeHistory fetch b1)[i]? = some v1 ∧ (nodeHistory fetch b2)[i]? = some v2 ∧
        v1 ≠ v2 := by
    rw [← hiff]
    simp
  refine ⟨hiff, htrue, ?_⟩
  intro hpre
  rw [htrue]
  rintro ⟨i, b1, b2, v1, v2, hb1, hb2, h1, h2, hne⟩
  exact hne (histories_agree_at _ _ i v1 v2 (hpre b1 b2 hb1 hb2) h1 h2)

theorem C22_consensus_check_witness :
    client3.Consensus fetchDiffer = false ∧ client3.Consensus fetchAgree = true :=
  ⟨(C22_consensus_check client3 fetchDiffer (by decide)).1.mpr
      ⟨1, ("1.1", "http://127.0.0.1:8080"), ("2.1", "http://127.0.0.1:8082"), [2], [3],
        by decide, by decide, rfl, rfl, by decide⟩,
   rfl⟩

end Paxi
